import Mathlib

/-!
Shallow embedding of the DS3 mod-localization extractor pipeline
(`main.py`): extraction of a hierarchical FMG document into a header plus
text parts, merging back, token-budgeted batch splitting, the translation
wrapper with its fallback behaviour, and the batch worker loop.
-/

namespace DS3

/-- Mirror of `estimate_tokens`: 1 token per 4 characters, at least 1. -/
def estimate_tokens (text : String) : Nat :=
  if text.length = 0 then 1 else max 1 ((text.length + 3) / 4)

/-! ## Document model

A JSON document as consumed by `build_structure_and_entryids`.  Fields read
with `.get(key, default)` in the source are `Option`s here (missing field =
`none`); `entry["ID"]` is the one direct indexing, which raises on a missing
key. -/

/-- One entry of an FMG: `{"ID": ..., "Text": ...}`, both possibly absent. -/
structure FmgEntry where
  id : Option Int
  text : Option String
deriving DecidableEq

/-- The `"Fmg"` object inside a wrapper. -/
structure Fmg where
  name : Option String
  version : Option Int
  bigEndian : Option Bool
  unicode : Option Bool
  compression : Option Int
  entries : List FmgEntry
deriving DecidableEq

/-- The default used for `wrapper.get("Fmg", {})`: an empty dict, whose
`.get` calls all yield their defaults and whose entry list is empty. -/
def emptyFmg : Fmg := ⟨none, none, none, none, none, []⟩

/-- One element of `"FmgWrappers"`. -/
structure FmgWrapper where
  name : Option String
  id : Option Int
  fmg : Option Fmg
deriving DecidableEq

/-- The top-level document: `{"Name": ..., "FmgWrappers": [...]}`. -/
structure Document where
  name : Option String
  fmgWrappers : List FmgWrapper
deriving DecidableEq

/-- One block of the header's `Structure` list, as built per wrapper. -/
structure StructureBlock where
  wrapperName : String
  wrapperID : Int
  fmgName : String
  entryIndexes : List Nat
  fmgVersion : Option Int
  fmgBigEndian : Option Bool
  fmgUnicode : Option Bool
  fmgCompression : Option Int
deriving DecidableEq

/-- The inner entry loop of `build_structure_and_entryids`: walk the
entries, assign each the next global index (`len(entry_ids)`), append its
`ID` to the id list.  `entry["ID"]` on a missing key raises. -/
def buildEntries : List Int → List FmgEntry → Except String (List Nat × List Int)
  | ids, [] => .ok ([], ids)
  | ids, e :: rest =>
    match e.id with
    | none => .error "KeyError: ID"
    | some eid =>
      match buildEntries (ids ++ [eid]) rest with
      | .error msg => .error msg
      | .ok (ixs, ids2) => .ok (ids.length :: ixs, ids2)

/-- The wrapper loop of `build_structure_and_entryids`. -/
def buildWrappers : List Int → List FmgWrapper → Except String (List StructureBlock × List Int)
  | ids, [] => .ok ([], ids)
  | ids, w :: ws =>
    let fmg := w.fmg.getD emptyFmg
    match buildEntries ids fmg.entries with
    | .error msg => .error msg
    | .ok (ixs, ids1) =>
      match buildWrappers ids1 ws with
      | .error msg => .error msg
      | .ok (blocks, ids2) =>
        .ok ({ wrapperName := w.name.getD ""
               wrapperID := w.id.getD 0
               fmgName := fmg.name.getD ""
               entryIndexes := ixs
               fmgVersion := fmg.version
               fmgBigEndian := fmg.bigEndian
               fmgUnicode := fmg.unicode
               fmgCompression := fmg.compression } :: blocks, ids2)

/-- Mirror of `build_structure_and_entryids`. -/
def build_structure_and_entryids (d : Document) :
    Except String (String × List StructureBlock × List Int) :=
  match buildWrappers [] d.fmgWrappers with
  | .error msg => .error msg
  | .ok (st, ids) => .ok (d.name.getD "", st, ids)

/-- The text-collection loop in `App.on_start_extract`:
`texts.append(entry.get("Text", ""))` over all wrappers and entries. -/
def collect_texts (d : Document) : List String :=
  (d.fmgWrappers.map (fun w =>
    ((w.fmg.getD emptyFmg).entries).map (fun e => e.text.getD ""))).flatten

/-- The header written by `write_header_and_parts` (file `0_header.json`). -/
structure Header where
  sourceTopName : String
  version : Nat
  totalEntries : Nat
  structureBlocks : List StructureBlock
  entryIDs : List Int
deriving DecidableEq

/-- One `part_i.json` file. -/
structure Part where
  chunkIndex : Nat
  chunkCount : Nat
  startIndex : Nat
  count : Nat
  entries : List String
deriving DecidableEq

/-- Mirror of `write_header_and_parts` (the value content of the files it
writes).  Without splitting there is a single part holding everything; with
splitting, `chunks = [texts[i:i+m] for i in range(0, n, m)]`, which in
Python raises `ValueError` when `m == 0`. -/
def write_header_and_parts (topName : String) (blocks : List StructureBlock)
    (entryIds : List Int) (texts : List String) (split : Bool) (maxPerFile : Nat) :
    Except String (Header × List Part) :=
  let header : Header :=
    { sourceTopName := topName, version := 1, totalEntries := entryIds.length
      structureBlocks := blocks, entryIDs := entryIds }
  if split = false then
    .ok (header, [{ chunkIndex := 1, chunkCount := 1, startIndex := 0
                    count := texts.length, entries := texts }])
  else if maxPerFile = 0 then
    .error "ValueError: range() arg 3 must not be zero"
  else
    let chunkCount := (texts.length + maxPerFile - 1) / maxPerFile
    let parts := (List.range chunkCount).map (fun i =>
      let start := i * maxPerFile
      let chunk := (texts.drop start).take maxPerFile
      { chunkIndex := i + 1, chunkCount := chunkCount, startIndex := start
        count := chunk.length, entries := chunk })
    .ok (header, parts)

/-- `App.on_start_extract`'s data flow: build the structure, collect the
texts, then write header and parts. -/
def extract_pipeline (d : Document) (split : Bool) (maxPerFile : Nat) :
    Except String (Header × List Part) :=
  match build_structure_and_entryids d with
  | .error msg => .error msg
  | .ok (topName, blocks, entryIds) =>
      write_header_and_parts topName blocks entryIds (collect_texts d) split maxPerFile

/-- The inner write loop of `merge_folder`:
`for i, t in enumerate(arr): gi = start + i; if 0 <= gi < total: texts[gi] = t`. -/
def writeAt : List String → Nat → List String → List String
  | buf, _, [] => buf
  | buf, gi, t :: rest =>
    writeAt (if gi < buf.length then buf.set gi t else buf) (gi + 1) rest

/-- Mirror of `merge_folder` applied to a header and the list of part files
found in the folder (the source raises when no `part_*.json` exist). -/
def merge_folder (header : Header) (partFiles : List Part) :
    Except String (String × List StructureBlock × List (Int × String)) :=
  let total := header.totalEntries
  if partFiles = [] then
    .error "part files not found"
  else
    let texts := partFiles.foldl
      (fun buf p => writeAt buf p.startIndex p.entries) (List.replicate total "")
    let merged := header.entryIDs.enum.map (fun p => (p.2, texts.getD p.1 ""))
    .ok (header.sourceTopName, header.structureBlocks, merged)

/-- An entry of the restored document: `ID` is `None` when the stored index
is out of range, `Text` defaults to the empty string. -/
structure RestoredEntry where
  id : Option Int
  text : String
deriving DecidableEq

/-- The restored `"Fmg"` object. -/
structure RestoredFmg where
  name : String
  entries : List RestoredEntry
  version : Option Int
  bigEndian : Option Bool
  unicode : Option Bool
  compression : Option Int
deriving DecidableEq

/-- A restored wrapper. -/
structure RestoredWrapper where
  name : String
  id : Int
  fmg : RestoredFmg
deriving DecidableEq

/-- The restored top-level document. -/
structure RestoredDocument where
  name : String
  fmgWrappers : List RestoredWrapper
deriving DecidableEq

/-- Mirror of `restore_original_from_parts`. -/
def restore_original_from_parts (topName : String) (blocks : List StructureBlock)
    (mergedEntries : List (Int × String)) : RestoredDocument :=
  let entryIds := mergedEntries.map Prod.fst
  let wrappers := blocks.map (fun b =>
    let entryList := b.entryIndexes.map (fun idx =>
      RestoredEntry.mk
        (if idx < entryIds.length then some (entryIds.getD idx 0) else none)
        ((mergedEntries.getD idx (0, "")).2))
    { name := b.wrapperName
      id := b.wrapperID
      fmg := { name := b.fmgName, entries := entryList, version := b.fmgVersion
               bigEndian := b.fmgBigEndian, unicode := b.fmgUnicode
               compression := b.fmgCompression } })
  { name := topName, fmgWrappers := wrappers }

/-- `App.on_start_merge`'s data flow: merge the folder, then restore. -/
def merge_pipeline (header : Header) (partFiles : List Part) :
    Except String RestoredDocument :=
  match merge_folder header partFiles with
  | .error msg => .error msg
  | .ok (topName, blocks, merged) =>
      .ok (restore_original_from_parts topName blocks merged)

/-! ## Batch splitting (`split_into_batches`) -/

/-- The inner `while j < n` loop of `split_into_batches`: starting from an
accumulated token count `acc`, return how many further items join the
current batch.  `first` tracks `j == i` (the break condition requires
`j > i`). -/
def batchTake (limit : Int) : Bool → Nat → List String → Nat
  | _, _, [] => 0
  | first, acc, t :: rest =>
    let tok := estimate_tokens t
    if limit < ((acc + tok : Nat) : Int) ∧ first = false then 0
    else 1 + batchTake limit false (acc + tok) rest

/-- The outer loop of `split_into_batches` in `mode == "manual"`, carried
at absolute position `i` over the remaining suffix of the texts.  `j == i`
after the inner loop forces a one-item batch. -/
def split_manual_go (manualBatchTokens : Int) (i : Nat) :
    List String → List (Nat × Nat × List String)
  | [] => []
  | t :: rest =>
    let texts := t :: rest
    let k := batchTake manualBatchTokens true 0 texts
    let j := if k = 0 then 1 else k
    (i, i + j, texts.take j) :: split_manual_go manualBatchTokens (i + j) (texts.drop j)
termination_by texts => texts.length
decreasing_by
  simp only [List.length_drop, List.length_cons]
  by_cases hk : batchTake manualBatchTokens true 0 (t :: rest) = 0
  · simp [hk]
  · simp [hk]; omega

/-- The outer loop of `split_into_batches` in the `else` (auto) branch,
textually duplicated in the source with `max_tokens` as the limit. -/
def split_auto_go (maxTokens : Int) (i : Nat) :
    List String → List (Nat × Nat × List String)
  | [] => []
  | t :: rest =>
    let texts := t :: rest
    let k := batchTake maxTokens true 0 texts
    let j := if k = 0 then 1 else k
    (i, i + j, texts.take j) :: split_auto_go maxTokens (i + j) (texts.drop j)
termination_by texts => texts.length
decreasing_by
  simp only [List.length_drop, List.length_cons]
  by_cases hk : batchTake maxTokens true 0 (t :: rest) = 0
  · simp [hk]
  · simp [hk]; omega

/-- Mirror of `split_into_batches`: a list of
`(start_index, end_index_exclusive, texts_slice)` triples. -/
def split_into_batches (texts : List String) (mode : String)
    (maxTokens manualBatchTokens : Int) : List (Nat × Nat × List String) :=
  if mode = "manual" then split_manual_go manualBatchTokens 0 texts
  else split_auto_go maxTokens 0 texts

/-- Total estimated token cost of a batch slice. -/
def sumCost (l : List String) : Nat :=
  (l.map estimate_tokens).sum

/-- The partition shape claimed for the splitter's output: starting at
position `s` of `texts` (of total length `n`), consecutive batches abut
exactly, are non-empty, stay within `[0, n)`, carry the matching slice of
`texts`, and end at `n`. -/
def ChainFrom (texts : List String) : Nat → Nat → List (Nat × Nat × List String) → Prop
  | s, n, [] => s = n
  | s, n, (a, b, sl) :: rest =>
    a = s ∧ s < b ∧ b ≤ n ∧ sl = (texts.drop a).take (b - a) ∧ ChainFrom texts b n rest

/-! ## Translation wrapper (`translate_batch`)

The network is abstracted: a chat-style provider call either raises, yields
a response whose content cannot be parsed into a JSON list, or yields a
parsed list of objects, each carrying an optional `index` and an optional
`text` (`obj.get("index")` / `obj.get("text")`).  The Google fallback is a
per-item oracle giving the translated string or `none` for a failed/raising
request.  The `SequenceMatcher` similarity is an abstract score oracle. -/

/-- Outcome of one chat-style provider request, as discriminated by the
source's parsing code. -/
inductive ChatResp where
  | raised : ChatResp
  | unparsable : ChatResp
  | parsed (objs : List (Option Int × Option String)) : ChatResp
deriving DecidableEq

/-- The APIs served by the batched chat-style branch. -/
def chatApis : List String := ["ChatGPT", "DeepSeek", "Gemini", "Claude"]

/-- The alignment loop over a parsed response:
`translations = [None]*len(texts)`, then for each object with an in-range
index, `translations[idx] = obj.get("text")`. -/
def fillParsed (texts : List String) (objs : List (Option Int × Option String)) :
    List (Option String) :=
  objs.foldl (fun tr obj =>
    match obj.1 with
    | none => tr
    | some idx =>
      if 0 ≤ idx ∧ idx < (texts.length : Int) then tr.set idx.toNat obj.2 else tr)
    (List.replicate texts.length none)

/-- After alignment, every still-missing position falls back to the
original text (`if translations[i] is None: translations[i] = texts[i]`). -/
def apply_parsed (texts : List String) (objs : List (Option Int × Option String)) :
    List String :=
  List.zipWith (fun o t => o.getD t) (fillParsed texts objs) texts

/-- The chat-style branch of `translate_batch`: exceptions and unparsable
content both fall back to the originals (`translations = texts[:]`). -/
def translate_core (texts : List String) (resp : ChatResp) : List String :=
  match resp with
  | .raised => texts
  | .unparsable => texts
  | .parsed objs => apply_parsed texts objs

/-- The back-translation alignment loop for a parsed chat-style response.
An object whose `text` is `None` makes `bt.lower()` raise inside the outer
`try`, aborting the whole back-check section but keeping the records
appended so far; an object with a missing or out-of-range index is
skipped. -/
def back_from_parsed (texts : List String) (sim : String → String → ℚ) :
    List (Option Int × Option String) → List (Nat × String × ℚ)
  | [] => []
  | (oi, ot) :: rest =>
    match oi with
    | none => back_from_parsed texts sim rest
    | some idx =>
      if 0 ≤ idx ∧ idx < (texts.length : Int) then
        match ot with
        | none => []
        | some bt =>
          (idx.toNat, bt, sim ((texts.getD idx.toNat "").toLower) bt.toLower)
            :: back_from_parsed texts sim rest
      else back_from_parsed texts sim rest

/-- The Google back-translation loop: per item, a failed request is skipped
(`except: continue`), a successful one is scored against the source text. -/
def back_google (texts translations : List String) (sim : String → String → ℚ)
    (backGoogle : Nat → Option String) : List (Nat × String × ℚ) :=
  translations.enum.filterMap (fun p =>
    match backGoogle p.1 with
    | none => none
    | some bt =>
      if h : p.1 < texts.length then
        some (p.1, bt, sim ((texts.get ⟨p.1, h⟩).toLower) bt.toLower)
      else none)

/-- Mirror of `translate_batch`.  `chat` / `google` are the provider
outcomes for the forward call, `backChat` / `backGoogle` for the
back-translation call, and `sim` the similarity scorer.  `targetLang` and
`userPrompt` only shape the wire request and do not affect the result
shape. -/
def translate_batch (api key : String) (texts : List String)
    (targetLang userPrompt : String) (backCheck : Bool)
    (backApi backKey : Option String)
    (chat : ChatResp) (google : Nat → Option String)
    (backChat : ChatResp) (backGoogle : Nat → Option String)
    (sim : String → String → ℚ) : List String × List (Nat × String × ℚ) :=
  if texts = [] then ([], [])
  else
    let translations :=
      if api ∈ chatApis then
        if key = "" then texts
        else translate_core texts chat
      else
        texts.mapIdx (fun i t => (google i).getD t)
    let backChecks :=
      if backCheck then
        let backApiName :=
          match backApi with
          | none => api
          | some s => if s = "" then api else s
        if backApiName ∈ chatApis then
          match backChat with
          | .raised => []
          | .unparsable => []
          | .parsed objs => back_from_parsed texts sim objs
        else back_google texts translations sim backGoogle
      else []
    (translations, backChecks)

/-- One position of `translate_batch`'s result that differs from the
original must have been supplied by the provider: in the chat-style branch
some parsed object carried exactly this index and text, in the Google
branch the per-item request returned it. -/
def providerGave (api : String) (chat : ChatResp) (google : Nat → Option String)
    (i : Nat) (t : String) : Prop :=
  if api ∈ chatApis then
    match chat with
    | .parsed objs => (some (i : Int), some t) ∈ objs
    | _ => False
  else google i = some t

/-! ## Batch worker (`batch_worker` inside `_process_parts_worker`) -/

/-- The provider environment one batch-translation call runs against:
`raises` models the worker-level `except` around `translate_batch`. -/
structure CallEnv where
  raises : Bool
  chat : ChatResp
  google : Nat → Option String
  backChat : ChatResp
  backGoogle : Nat → Option String

/-- One `translate_batch` call as made by `batch_worker`, including its
`except` fallback `trans = texts[:]`, `back = []`. -/
def process_batch (api key target prompt : String) (backCheck : Bool)
    (sim : String → String → ℚ) (env : CallEnv) (texts : List String) :
    List String × List (Nat × String × ℚ) :=
  if env.raises then (texts, [])
  else translate_batch api key texts target prompt backCheck none none
    env.chat env.google env.backChat env.backGoogle sim

/-- The result write-back loop: `for offset, ttxt in enumerate(trans):
results[s + offset] = ttxt`. -/
def writeOptAt : List (Option String) → Nat → List String → List (Option String)
  | buf, _, [] => buf
  | buf, i, t :: rest => writeOptAt (buf.set i (some t)) (i + 1) rest

/-- The mutable per-part state the batch workers share: the `results`
buffer, the accumulated `part_back_checks`, the low-score warning log
entries, and the `done_tasks` counter. -/
structure PartRun where
  results : List (Option String)
  backChecks : List (Nat × String × ℚ)
  warnings : List (Nat × ℚ)
  done : Nat
deriving Inhabited

/-- Processing of one dequeued batch by `batch_worker`: translate, write
the results at `s + offset`, rebase the back-check indices to
`global_index = s + bi`, log a warning for every score below 0.6, and add
the batch's size to the progress counter. -/
def work_batch (api key target prompt : String) (backCheck : Bool)
    (sim : String → String → ℚ) (env : CallEnv)
    (st : PartRun) (b : Nat × Nat × List String) : PartRun :=
  let s := b.1
  let e := b.2.1
  let texts := b.2.2
  let tb := process_batch api key target prompt backCheck sim env texts
  { results := writeOptAt st.results s tb.1
    backChecks := st.backChecks ++ tb.2.map (fun r => (s + r.1, r.2.1, r.2.2))
    warnings := st.warnings ++
      (tb.2.filter (fun r => r.2.2 < (6 : ℚ)/10)).map (fun r => (s + r.1, r.2.2))
    done := st.done + (e - s) }

/-- Draining the FIFO queue of batches (the sequential order in which the
queue hands batches out; writes of distinct batches touch disjoint index
ranges).  `envs k` is the provider environment of the `k`-th batch. -/
def run_batches (api key target prompt : String) (backCheck : Bool)
    (sim : String → String → ℚ) (envs : Nat → CallEnv) :
    List (Nat × Nat × List String) → Nat → PartRun → PartRun
  | [], _, st => st
  | b :: rest, k, st =>
    run_batches api key target prompt backCheck sim envs rest (k + 1)
      (work_batch api key target prompt backCheck sim (envs k) st b)

/-- The per-part pipeline of `_process_parts_worker`: split the part's
entries into batches, drain the queue, then replace every never-written
position by its original text before flushing the part. -/
def part_run (entries : List String) (mode : String) (maxTokens manualTokens : Int)
    (api key target prompt : String) (backCheck : Bool)
    (sim : String → String → ℚ) (envs : Nat → CallEnv) : PartRun :=
  let batches := split_into_batches entries mode maxTokens manualTokens
  run_batches api key target prompt backCheck sim envs batches 0
    { results := List.replicate entries.length none, backChecks := [], warnings := []
      done := 0 }

/-- The translated part file written by `_process_parts_worker`: the
results buffer with `None` holes filled by the original entries. -/
def part_output (entries : List String) (mode : String) (maxTokens manualTokens : Int)
    (api key target prompt : String) (backCheck : Bool)
    (sim : String → String → ℚ) (envs : Nat → CallEnv) : List String :=
  List.zipWith (fun o t => o.getD t)
    (part_run entries mode maxTokens manualTokens api key target prompt backCheck sim envs).results
    entries

/-- A failed provider call for a whole batch, in the three shapes named by
the error-handling design: the call raises, a chat-style response cannot be
parsed, or its parsed objects align no index with a usable text; for the
Google fallback, every per-item request fails. -/
def BatchFails (api : String) (texts : List String) (env : CallEnv) : Prop :=
  env.raises = true
  ∨ (api ∈ chatApis ∧
      (env.chat = .raised ∨ env.chat = .unparsable ∨
        (∃ objs, env.chat = .parsed objs ∧
          ∀ o ∈ objs, ∀ i : Int, o.1 = some i →
            0 ≤ i → i < (texts.length : Int) → o.2 = none)))
  ∨ (api ∉ chatApis ∧ ∀ i, i < texts.length → env.google i = none)

/-! ## Worker loop with pause/stop (`batch_worker`'s outer `while True`) -/

/-- The state one worker thread observes: the queue of still-unclaimed
batches, the shared part state, how many batches it has processed, and
whether its loop has exited (`break`). -/
structure WorkerState where
  queue : List (Nat × Nat × List String)
  part : PartRun
  processed : Nat
  exited : Bool

/-- One iteration of `batch_worker`'s `while True` loop, driven by the
externally-set `(stop, pause)` flags it polls: stop breaks the loop, pause
sleeps without dequeuing, an empty queue breaks (`Empty` after the brief
timeout), and otherwise one batch is dequeued and processed. -/
def worker_step (api key target prompt : String) (backCheck : Bool)
    (sim : String → String → ℚ) (envs : Nat → CallEnv)
    (flags : Bool × Bool) (st : WorkerState) : WorkerState :=
  if st.exited then st
  else if flags.1 then { st with exited := true }
  else if flags.2 then st
  else
    match st.queue with
    | [] => { st with exited := true }
    | b :: rest =>
      { queue := rest
        part := work_batch api key target prompt backCheck sim (envs st.processed) st.part b
        processed := st.processed + 1
        exited := false }

/-- Iterated worker steps from the initial per-part state, under a schedule
`flags t = (stop, pause)` of the polled flags at iteration `t`. -/
def worker_run (entries : List String) (mode : String) (maxTokens manualTokens : Int)
    (api key target prompt : String) (backCheck : Bool)
    (sim : String → String → ℚ) (envs : Nat → CallEnv)
    (flags : Nat → Bool × Bool) : Nat → WorkerState
  | 0 =>
    { queue := split_into_batches entries mode maxTokens manualTokens
      part := { results := List.replicate entries.length none, backChecks := []
                warnings := [], done := 0 }
      processed := 0
      exited := false }
  | t + 1 =>
    worker_step api key target prompt backCheck sim envs (flags t)
      (worker_run entries mode maxTokens manualTokens api key target prompt backCheck
        sim envs flags t)

/-! ## Statement-side definitions -/

/-- `true` exactly on a successful `Except` result (no exception raised). -/
def exceptOk {α : Type} : Except String α → Bool
  | .ok _ => true
  | .error _ => false

/-- Extraction followed immediately by merge, with no translation step. -/
def extract_then_merge (d : Document) (split : Bool) (m : Nat) :
    Except String RestoredDocument :=
  match extract_pipeline d split m with
  | .error msg => .error msg
  | .ok (h, ps) => merge_pipeline h ps

/-- A well-formed input document: every entry carries both its `ID` and its
`Text`. -/
def WellFormedDoc (d : Document) : Prop :=
  ∀ w ∈ d.fmgWrappers, ∀ e ∈ (w.fmg.getD emptyFmg).entries,
    e.id ≠ none ∧ e.text ≠ none

/-- Per wrapper, each entry's `(ID, Text)` payload of an input document
(`Text` read as extraction reads it, defaulting to `""`). -/
def wrappersEntryData (ws : List FmgWrapper) : List (List (Option Int × String)) :=
  ws.map (fun w =>
    ((w.fmg.getD emptyFmg).entries).map (fun e => (e.id, e.text.getD "")))

/-- Per wrapper, each entry's `(ID, Text)` payload of an input document. -/
def docEntryData (d : Document) : List (List (Option Int × String)) :=
  wrappersEntryData d.fmgWrappers

/-- Per wrapper, each entry's `(ID, Text)` payload of a restored document. -/
def restoredEntryData (r : RestoredDocument) : List (List (Option Int × String)) :=
  r.fmgWrappers.map (fun w => w.fmg.entries.map (fun e => (e.id, e.text)))

/-- Closed form of the structure blocks extraction builds: the `k`-th
wrapper's block holds the consecutive global indexes of its entries. -/
def blocksSpec : Nat → List FmgWrapper → List StructureBlock
  | _, [] => []
  | off, w :: ws =>
    let fmg := w.fmg.getD emptyFmg
    { wrapperName := w.name.getD ""
      wrapperID := w.id.getD 0
      fmgName := fmg.name.getD ""
      entryIndexes := List.range' off fmg.entries.length
      fmgVersion := fmg.version
      fmgBigEndian := fmg.bigEndian
      fmgUnicode := fmg.unicode
      fmgCompression := fmg.compression } :: blocksSpec (off + fmg.entries.length) ws

/-- The flat sequence of entry ids, in document order. -/
def flatIds (ws : List FmgWrapper) : List Int :=
  (ws.map (fun w =>
    ((w.fmg.getD emptyFmg).entries).map (fun e => e.id.getD 0))).flatten

/-- The flat sequence of entry texts, in document order. -/
def flatTexts (ws : List FmgWrapper) : List String :=
  (ws.map (fun w =>
    ((w.fmg.getD emptyFmg).entries).map (fun e => e.text.getD ""))).flatten

/-- The flat sequence of `(id, text)` pairs, in document order. -/
def flatPairs (ws : List FmgWrapper) : List (Int × String) :=
  (ws.map (fun w =>
    ((w.fmg.getD emptyFmg).entries).map (fun e => (e.id.getD 0, e.text.getD "")))).flatten

/-- A part file whose entries are exactly the slice of the flat text
sequence at its recorded start index. -/
def ValidPart (texts : List String) (p : Part) : Prop :=
  p.startIndex + p.entries.length ≤ texts.length ∧
  ∀ j, j < p.entries.length → p.entries.getD j "" = texts.getD (p.startIndex + j) ""

/-- Global index `i` lies inside some part of `ps`. -/
def CoveredBy (ps : List Part) (i : Nat) : Prop :=
  ∃ p ∈ ps, p.startIndex ≤ i ∧ i < p.startIndex + p.entries.length

/-! ## Concrete sample inputs (for counterexamples and witnesses) -/

/-- A small complete FMG with two entries. -/
def fmgA : Fmg :=
  { name := some "FmgA", version := some 1, bigEndian := some false
    unicode := some true, compression := some 0
    entries := [⟨some 10, some "Hello"⟩, ⟨some 11, some "World"⟩] }

/-- A small complete FMG with one entry and absent meta fields. -/
def fmgB : Fmg :=
  { name := some "FmgB", version := none, bigEndian := none
    unicode := none, compression := none
    entries := [⟨some 20, some "Foo"⟩] }

/-- A well-formed two-wrapper document. -/
def docSample : Document :=
  ⟨some "Top", [⟨some "WrapA", some 1, some fmgA⟩, ⟨some "WrapB", some 2, some fmgB⟩]⟩

/-- A well-formed document that owns no entries at all. -/
def docNoEntries : Document := ⟨some "Empty", [⟨some "W", some 1, some emptyFmg⟩]⟩

/-- A document whose single wrapper is missing its `Name` field while its
entries are complete. -/
def docMissingWrapperName : Document := ⟨some "Top", [⟨none, some 1, some fmgB⟩]⟩

/-- A document containing an entry with no `ID` field. -/
def docMissingId : Document :=
  ⟨some "Top", [⟨some "W", some 1,
    some { name := some "F", version := none, bigEndian := none, unicode := none
           compression := none, entries := [⟨none, some "x"⟩] }⟩]⟩

/-- A provider environment whose call raises. -/
def envRaise : CallEnv := ⟨true, .raised, fun _ => none, .raised, fun _ => none⟩

/-- A provider environment whose response content cannot be parsed (the
forward call falls back to the originals). -/
def envUnparsed : CallEnv := ⟨false, .unparsable, fun _ => none, .unparsable, fun _ => none⟩

/-- A constant similarity oracle. -/
def simConst : String → String → ℚ := fun _ _ => 1

/-- Batch environments where only the first batch's provider call fails. -/
def envsFirstFails : Nat → CallEnv := fun k => if k = 0 then envRaise else envUnparsed

/-- Batch environments where every forward response is unparsable. -/
def envsAllUnparsed : Nat → CallEnv := fun _ => envUnparsed

/-- The zero similarity oracle. -/
def simZero : String → String → ℚ := fun _ _ => 0

/-- A flag schedule that never stops and never pauses. -/
def flagsNone : Nat → Bool × Bool := fun _ => (false, false)

/-- Well-formed batch lists relative to a floor `s0` and a bound `n`:
each batch sits at or after the floor, is non-empty, stays within the
bound, carries as many texts as its index range, and the following batches
sit at or after its end. -/
def BatchesWF (n : Nat) : Nat → List (Nat × Nat × List String) → Prop
  | _, [] => True
  | s0, (a, b, sl) :: rest => s0 ≤ a ∧ a < b ∧ b ≤ n ∧ sl.length = b - a ∧ BatchesWF n b rest

/-! ## Lemmas about the batch splitter -/

theorem estimate_tokens_pos (t : String) : 0 < estimate_tokens t := by
  unfold estimate_tokens
  split
  · omega
  · exact lt_of_lt_of_le Nat.zero_lt_one (le_max_left _ _)

theorem sumCost_nil : sumCost [] = 0 := rfl

theorem sumCost_cons (t : String) (l : List String) :
    sumCost (t :: l) = estimate_tokens t + sumCost l := by
  simp [sumCost]

theorem batchTake_le_length (limit : Int) :
    ∀ (xs : List String) (first : Bool) (acc : Nat), batchTake limit first acc xs ≤ xs.length := by
  intro xs
  induction xs with
  | nil => intro first acc; simp [batchTake]
  | cons t rest ih =>
    intro first acc
    rw [batchTake]
    split
    · simp
    · have := ih false (acc + estimate_tokens t)
      simp only [List.length_cons]
      omega

theorem batchTake_pos (limit : Int) (acc : Nat) (t : String) (rest : List String) :
    0 < batchTake limit true acc (t :: rest) := by
  rw [batchTake]
  split
  · rename_i h
    simp at h
  · omega

theorem batchTake_acc_le (limit : Int) :
    ∀ (xs : List String) (acc : Nat), (acc : Int) ≤ limit →
      ((acc + sumCost (xs.take (batchTake limit false acc xs)) : Nat) : Int) ≤ limit := by
  intro xs
  induction xs with
  | nil =>
    intro acc h
    simpa [batchTake, sumCost] using h
  | cons t rest ih =>
    intro acc h
    rw [batchTake]
    by_cases hc : limit < ((acc + estimate_tokens t : Nat) : Int)
    · rw [if_pos ⟨hc, rfl⟩]
      simpa [sumCost] using h
    · rw [if_neg (fun hh => hc hh.1)]
      have h2 : ((acc + estimate_tokens t : Nat) : Int) ≤ limit := by omega
      have h3 := ih (acc + estimate_tokens t) h2
      rw [Nat.add_comm 1, List.take_succ_cons, sumCost_cons]
      push_cast at h3 ⊢
      omega

theorem batch_cost_property (limit : Int) (t : String) (rest : List String) :
    ((sumCost ((t :: rest).take (batchTake limit true 0 (t :: rest))) : Nat) : Int) ≤ limit
    ∨ ((t :: rest).take (batchTake limit true 0 (t :: rest))).length = 1 := by
  have hstep : batchTake limit true 0 (t :: rest)
      = 1 + batchTake limit false (0 + estimate_tokens t) rest := by
    rw [batchTake]
    rw [if_neg (fun hh => by simpa using hh.2)]
  by_cases htok : (estimate_tokens t : Int) ≤ limit
  · left
    have h3 := batchTake_acc_le limit rest (0 + estimate_tokens t) (by simpa using htok)
    rw [hstep, Nat.add_comm 1, List.take_succ_cons, sumCost_cons]
    push_cast at h3 ⊢
    omega
  · right
    have hz : batchTake limit false (0 + estimate_tokens t) rest = 0 := by
      cases rest with
      | nil => rfl
      | cons u us =>
        rw [batchTake]
        rw [if_pos ?_]
        refine ⟨?_, rfl⟩
        have := estimate_tokens_pos u
        push_cast
        omega
    rw [hstep, hz]
    simp

theorem split_manual_go_cost (limit : Int) (i : Nat) (xs : List String) :
    ∀ b ∈ split_manual_go limit i xs,
      ((sumCost b.2.2 : Nat) : Int) ≤ limit ∨ b.2.2.length = 1 := by
  induction i, xs using split_manual_go.induct limit with
  | case1 i => simp [split_manual_go]
  | case2 i t rest texts k j ih =>
    intro b hb
    have hk0 : batchTake limit true 0 (t :: rest) ≠ 0 := by
      have := batchTake_pos limit 0 t rest
      omega
    rw [split_manual_go] at hb
    simp only [if_neg hk0, List.mem_cons] at hb
    rcases hb with hb | hb
    · subst hb
      exact batch_cost_property limit t rest
    · have hj : j = batchTake limit true 0 (t :: rest) := dif_neg hk0
      have htexts : texts = t :: rest := rfl
      rw [hj, htexts] at ih
      exact ih b hb

theorem split_go_eq (limit : Int) (i : Nat) (xs : List String) :
    split_manual_go limit i xs = split_auto_go limit i xs := by
  induction i, xs using split_manual_go.induct limit with
  | case1 i => rw [split_manual_go, split_auto_go]
  | case2 i t rest texts k j ih =>
    rw [split_manual_go, split_auto_go]
    congr 1

theorem split_manual_go_chain (limit : Int) (i : Nat) (xs : List String) :
    ∀ full : List String, xs = full.drop i →
      ChainFrom full i (i + xs.length) (split_manual_go limit i xs) := by
  induction i, xs using split_manual_go.induct limit with
  | case1 i =>
    intro full h
    simp [split_manual_go, ChainFrom]
  | case2 i t rest texts k j ih =>
    intro full h
    have hk0 : batchTake limit true 0 (t :: rest) ≠ 0 := by
      have := batchTake_pos limit 0 t rest
      omega
    have hj : j = batchTake limit true 0 (t :: rest) := dif_neg hk0
    have htexts : texts = t :: rest := rfl
    have hkle : batchTake limit true 0 (t :: rest) ≤ (t :: rest).length :=
      batchTake_le_length limit (t :: rest) true 0
    have hkle' : batchTake limit true 0 (t :: rest) ≤ rest.length + 1 := by
      simpa using hkle
    rw [split_manual_go]
    rw [if_neg hk0]
    rw [ChainFrom]
    refine ⟨rfl, ?_, ?_, ?_, ?_⟩
    · omega
    · simp only [List.length_cons]
      omega
    · have hJ : i + batchTake limit true 0 (t :: rest) - i
          = batchTake limit true 0 (t :: rest) := by omega
      rw [hJ, h]
    · rw [hj, htexts] at ih
      have hdrop : List.drop (batchTake limit true 0 (t :: rest)) (t :: rest)
          = full.drop (i + batchTake limit true 0 (t :: rest)) := by
        rw [h, List.drop_drop]
      have := ih full hdrop
      have hlen : i + batchTake limit true 0 (t :: rest)
            + (List.drop (batchTake limit true 0 (t :: rest)) (t :: rest)).length
          = i + (t :: rest).length := by
        simp only [List.length_drop]
        omega
      rw [hlen] at this
      exact this

theorem split_chain (texts : List String) (mode : String)
    (maxTokens manualBatchTokens : Int) :
    ChainFrom texts 0 texts.length
      (split_into_batches texts mode maxTokens manualBatchTokens) := by
  rw [split_into_batches]
  split
  · simpa using split_manual_go_chain manualBatchTokens 0 texts texts (by simp)
  · rw [← split_go_eq]
    simpa using split_manual_go_chain maxTokens 0 texts texts (by simp)

/-- C6: the `auto` and `manual` branches compute the same function of the
supplied budget. -/
theorem c6_modes_equal (texts : List String) (B otherAuto otherManual : Int) :
    split_into_batches texts "manual" otherAuto B
      = split_into_batches texts "auto" B otherManual := by
  rw [split_into_batches, split_into_batches, if_pos rfl, if_neg (by decide)]
  exact split_go_eq B 0 texts

/-- C3: for every input list and budget, the returned batches partition the
index range `[0, n)` with no gaps and no overlaps: the first starts at 0,
ends meet the next start, the last ends at `n`, every batch is non-empty,
and each carries exactly its slice of the input. -/
theorem c3_batches_partition (texts : List String) (mode : String)
    (maxTokens manualBatchTokens : Int) :
    ChainFrom texts 0 texts.length
      (split_into_batches texts mode maxTokens manualBatchTokens) :=
  split_chain texts mode maxTokens manualBatchTokens

/-- C2: every batch's cumulative estimated token cost stays within the
supplied budget, except that a batch may be a single item whose own cost
already exceeds the budget. -/
theorem c2_batch_cost_bound (texts : List String) (mode : String)
    (maxTokens manualBatchTokens : Int)
    (b : Nat × Nat × List String)
    (hb : b ∈ split_into_batches texts mode maxTokens manualBatchTokens) :
    ((sumCost b.2.2 : Nat) : Int) ≤ (if mode = "manual" then manualBatchTokens else maxTokens)
    ∨ (b.2.2.length = 1 ∧
        (if mode = "manual" then manualBatchTokens else maxTokens) < ((sumCost b.2.2 : Nat) : Int)) := by
  rw [split_into_batches] at hb
  by_cases hm : mode = "manual"
  · rw [if_pos hm] at hb
    rw [if_pos hm]
    rcases split_manual_go_cost manualBatchTokens 0 texts b hb with h | h
    · exact Or.inl h
    · by_cases hle : ((sumCost b.2.2 : Nat) : Int) ≤ manualBatchTokens
      · exact Or.inl hle
      · exact Or.inr ⟨h, lt_of_not_le hle⟩
  · rw [if_neg hm] at hb
    rw [if_neg hm]
    rw [← split_go_eq] at hb
    rcases split_manual_go_cost maxTokens 0 texts b hb with h | h
    · exact Or.inl h
    · by_cases hle : ((sumCost b.2.2 : Nat) : Int) ≤ maxTokens
      · exact Or.inl hle
      · exact Or.inr ⟨h, lt_of_not_le hle⟩

/-- Witness for C2 at a concrete input: budget 1, two items of cost 1. -/
theorem c2_batch_cost_bound_witness :
    (0, 1, ["aaaa"]) ∈ split_into_batches ["aaaa", "bbbb"] "auto" 1 0
    ∧ (((sumCost ["aaaa"] : Nat) : Int) ≤ (if "auto" = "manual" then (0 : Int) else 1)
        ∨ ((["aaaa"] : List String).length = 1 ∧
            (if "auto" = "manual" then (0 : Int) else 1) < ((sumCost ["aaaa"] : Nat) : Int))) :=
  ⟨by simp +decide [split_into_batches, split_auto_go, batchTake, estimate_tokens],
   c2_batch_cost_bound ["aaaa", "bbbb"] "auto" 1 0 (0, 1, ["aaaa"])
     (by simp +decide [split_into_batches, split_auto_go, batchTake, estimate_tokens])⟩

/-! ## Lemmas about the chunk store (`write_header_and_parts`) -/

theorem chunks_sum (m : Nat) (hm : 0 < m) (n : Nat) :
    ∀ xs : List String, xs.length = n →
      (((List.range ((xs.length + m - 1) / m)).map
          (fun i => ((xs.drop (i * m)).take m).length)).sum) = xs.length := by
  induction n using Nat.strong_induction_on with
  | _ n ih =>
    intro xs hxs
    by_cases h0 : xs.length = 0
    · have hc : (xs.length + m - 1) / m = 0 := by
        rw [h0]
        exact Nat.div_eq_of_lt (by omega)
      simp [hc, h0]
    · have hc : (xs.length + m - 1) / m = (xs.length - 1) / m + 1 := by
        have h1 : xs.length + m - 1 = (xs.length - 1) + m := by omega
        rw [h1, Nat.add_div_right _ hm]
      have hys : (xs.drop m).length = xs.length - m := by simp
      have hk : ((xs.drop m).length + m - 1) / m = (xs.length - 1) / m := by
        rw [hys]
        rcases Nat.le_total m xs.length with hle | hle
        · congr 1
          omega
        · have h1 : xs.length - m = 0 := by omega
          rw [h1, Nat.div_eq_of_lt (by omega), Nat.div_eq_of_lt (by omega)]
      have hrec := ih (xs.drop m).length (by rw [hys]; omega) (xs.drop m) rfl
      rw [hk] at hrec
      rw [hc, List.range_succ_eq_map, List.map_cons, List.sum_cons, List.map_map]
      have hmap : (List.range ((xs.length - 1) / m)).map
            ((fun i => ((xs.drop (i * m)).take m).length) ∘ Nat.succ)
          = (List.range ((xs.length - 1) / m)).map
            (fun i => (((xs.drop m).drop (i * m)).take m).length) := by
        refine List.map_congr_left (fun a _ => ?_)
        simp only [Function.comp_apply, List.drop_drop, Nat.succ_mul, Nat.add_comm]
      rw [hmap, hrec]
      simp only [Nat.zero_mul, List.drop_zero, List.length_take, hys]
      omega

/-- C5: with splitting off, one part carries all texts from index 0; with a
positive chunk size `m`, exactly `ceil(n/m)` parts are emitted, the `i`-th
(0-based here) starting at `i*m` and carrying the `m`-sized slice there
(the last possibly shorter); in every successful configuration the part
sizes sum to the header's `TotalEntries`. -/
theorem c5_write_chunks (topName : String) (blocks : List StructureBlock)
    (entryIds : List Int) (texts : List String)
    (hlen : entryIds.length = texts.length) :
    (∀ m, write_header_and_parts topName blocks entryIds texts false m
        = .ok ({ sourceTopName := topName, version := 1, totalEntries := entryIds.length
                 structureBlocks := blocks, entryIDs := entryIds },
               [{ chunkIndex := 1, chunkCount := 1, startIndex := 0
                  count := texts.length, entries := texts }]))
    ∧ (∀ m, 0 < m → ∃ hdr parts,
        write_header_and_parts topName blocks entryIds texts true m = .ok (hdr, parts)
        ∧ parts.length = (texts.length + m - 1) / m
        ∧ ∀ i (hi : i < parts.length),
            (parts.get ⟨i, hi⟩).chunkIndex = i + 1
            ∧ (parts.get ⟨i, hi⟩).startIndex = i * m
            ∧ (parts.get ⟨i, hi⟩).entries = (texts.drop (i * m)).take m
            ∧ (parts.get ⟨i, hi⟩).count = (parts.get ⟨i, hi⟩).entries.length)
    ∧ (∀ split m hdr parts,
        write_header_and_parts topName blocks entryIds texts split m = .ok (hdr, parts)
        → (parts.map (fun p => p.entries.length)).sum = hdr.totalEntries) := by
  refine ⟨fun m => rfl, ?_, ?_⟩
  · intro m hm
    have heq : write_header_and_parts topName blocks entryIds texts true m
        = .ok ({ sourceTopName := topName, version := 1, totalEntries := entryIds.length
                 structureBlocks := blocks, entryIDs := entryIds },
               (List.range ((texts.length + m - 1) / m)).map (fun i =>
                 { chunkIndex := i + 1, chunkCount := (texts.length + m - 1) / m
                   startIndex := i * m
                   count := ((texts.drop (i * m)).take m).length
                   entries := (texts.drop (i * m)).take m })) := by
      rw [write_header_and_parts]
      rw [if_neg (by decide), if_neg hm.ne']
    refine ⟨_, _, heq, by simp, ?_⟩
    intro i hi
    simp only [List.length_map, List.length_range] at hi
    simp [List.get_eq_getElem, List.getElem_map, List.getElem_range]
  · intro split m hdr parts hok
    rw [write_header_and_parts] at hok
    by_cases hsplit : split = false
    · rw [if_pos hsplit] at hok
      simp only [Except.ok.injEq, Prod.mk.injEq] at hok
      obtain ⟨h1, h2⟩ := hok
      subst h1
      subst h2
      simpa using hlen.symm
    · rw [if_neg hsplit] at hok
      by_cases hm : m = 0
      · rw [if_pos hm] at hok
        exact absurd hok (by simp)
      · rw [if_neg hm] at hok
        simp only [Except.ok.injEq, Prod.mk.injEq] at hok
        obtain ⟨h1, h2⟩ := hok
        subst h1
        subst h2
        rw [List.map_map]
        have := chunks_sum m (by omega) texts.length texts rfl
        simp only [Function.comp_def]
        simpa using this.trans hlen.symm

/-- Witness for C5 at a concrete input. -/
theorem c5_write_chunks_witness :
    ([(20 : Int)].length = ["Foo"].length)
    ∧ ((∀ m, write_header_and_parts "T" [] [(20 : Int)] ["Foo"] false m
        = .ok ({ sourceTopName := "T", version := 1, totalEntries := [(20 : Int)].length
                 structureBlocks := [], entryIDs := [(20 : Int)] },
               [{ chunkIndex := 1, chunkCount := 1, startIndex := 0
                  count := ["Foo"].length, entries := ["Foo"] }]))
      ∧ (∀ m, 0 < m → ∃ hdr parts,
          write_header_and_parts "T" [] [(20 : Int)] ["Foo"] true m = .ok (hdr, parts)
          ∧ parts.length = (["Foo"].length + m - 1) / m
          ∧ ∀ i (hi : i < parts.length),
              (parts.get ⟨i, hi⟩).chunkIndex = i + 1
              ∧ (parts.get ⟨i, hi⟩).startIndex = i * m
              ∧ (parts.get ⟨i, hi⟩).entries = (["Foo"].drop (i * m)).take m
              ∧ (parts.get ⟨i, hi⟩).count = (parts.get ⟨i, hi⟩).entries.length)
      ∧ (∀ split m hdr parts,
          write_header_and_parts "T" [] [(20 : Int)] ["Foo"] split m = .ok (hdr, parts)
          → (parts.map (fun p => p.entries.length)).sum = hdr.totalEntries)) :=
  ⟨rfl, c5_write_chunks "T" [] [(20 : Int)] ["Foo"] rfl⟩

/-! ## Lemmas about the translation wrapper -/

theorem fillParsed_length (texts : List String) (objs : List (Option Int × Option String)) :
    (fillParsed texts objs).length = texts.length := by
  unfold fillParsed
  refine @List.foldlRecOn (List (Option String)) (Option Int × Option String)
    (fun acc => acc.length = texts.length) objs _ (List.replicate texts.length none) ?_ ?_
  · simp
  · intro b hb a ha
    rcases a with ⟨a1, a2⟩
    rcases a1 with _ | idx
    · exact hb
    · dsimp only
      by_cases hcond : 0 ≤ idx ∧ idx < (texts.length : Int)
      · rw [if_pos hcond, List.length_set]
        exact hb
      · rw [if_neg hcond]
        exact hb

theorem fillParsed_mem (texts : List String) (objs : List (Option Int × Option String))
    (i : Nat) (t : String) (h : (fillParsed texts objs).getD i none = some t) :
    (some (i : Int), some t) ∈ objs := by
  unfold fillParsed at h
  revert h
  refine @List.foldlRecOn (List (Option String)) (Option Int × Option String)
    (fun acc => acc.getD i none = some t → (some (i : Int), some t) ∈ objs)
    objs _ (List.replicate texts.length none) ?_ ?_
  · intro h
    rw [List.getD_eq_getElem?_getD, List.getElem?_replicate] at h
    by_cases hi : i < texts.length
    · simp [hi] at h
    · simp [hi] at h
  · intro b hb a ha
    rcases a with ⟨a1, a2⟩
    rcases a1 with _ | idx
    · exact hb
    · dsimp only
      by_cases hcond : 0 ≤ idx ∧ idx < (texts.length : Int)
      · rw [if_pos hcond]
        intro h
        by_cases hii : idx.toNat = i
        · rw [List.getD_eq_getElem?_getD, List.getElem?_set, if_pos hii] at h
          by_cases hlen : idx.toNat < b.length
          · rw [if_pos hlen] at h
            have ha2 : a2 = some t := by
              simpa using h
            have hidx : (i : Int) = idx := by
              omega
            have haeq : ((some (i : Int), some t) : Option Int × Option String)
                = (some idx, a2) := by
              rw [hidx, ha2]
            rw [haeq]
            exact ha
          · rw [if_neg hlen] at h
            simp at h
        · rw [List.getD_eq_getElem?_getD, List.getElem?_set, if_neg hii] at h
          exact hb (by rw [List.getD_eq_getElem?_getD]; exact h)
      · rw [if_neg hcond]
        exact hb

/-- C10: `translate_batch` always returns a translations list of exactly
the input's length, and every position holds either the original text at
that position or a value supplied by the provider for exactly that index —
across the empty-input, missing-key, unparsable, misaligned, and raising
cases alike. -/
theorem c10_translate_alignment (api key : String) (texts : List String)
    (targetLang userPrompt : String) (backCheck : Bool) (backApi backKey : Option String)
    (chat : ChatResp) (google : Nat → Option String)
    (backChat : ChatResp) (backGoogle : Nat → Option String) (sim : String → String → ℚ) :
    ((translate_batch api key texts targetLang userPrompt backCheck backApi backKey
        chat google backChat backGoogle sim).1).length = texts.length
    ∧ ∀ i, i < texts.length →
        ((translate_batch api key texts targetLang userPrompt backCheck backApi backKey
            chat google backChat backGoogle sim).1).getD i "" = texts.getD i ""
        ∨ providerGave api chat google i
            (((translate_batch api key texts targetLang userPrompt backCheck backApi backKey
                chat google backChat backGoogle sim).1).getD i "") := by
  by_cases hempty : texts = []
  · subst hempty
    refine ⟨rfl, ?_⟩
    intro i hi
    simp at hi
  · have hfst : (translate_batch api key texts targetLang userPrompt backCheck backApi backKey
        chat google backChat backGoogle sim).1
        = (if api ∈ chatApis then (if key = "" then texts else translate_core texts chat)
           else texts.mapIdx (fun i t => (google i).getD t)) := by
      rw [translate_batch.eq_def, if_neg hempty]
    rw [hfst]
    by_cases hapi : api ∈ chatApis
    · rw [if_pos hapi]
      by_cases hkey : key = ""
      · rw [if_pos hkey]
        exact ⟨rfl, fun i hi => Or.inl rfl⟩
      · rw [if_neg hkey]
        cases chat with
        | raised => exact ⟨rfl, fun i hi => Or.inl rfl⟩
        | unparsable => exact ⟨rfl, fun i hi => Or.inl rfl⟩
        | parsed objs =>
          have hlen : (translate_core texts (.parsed objs)).length = texts.length := by
            rw [translate_core, apply_parsed, List.length_zipWith, fillParsed_length]
            omega
          refine ⟨hlen, ?_⟩
          intro i hi
          have hfill : i < (fillParsed texts objs).length := by
            rw [fillParsed_length]
            exact hi
          have hzl : i < (List.zipWith (fun o t => o.getD t)
              (fillParsed texts objs) texts).length := by
            rw [List.length_zipWith, fillParsed_length]
            omega
          rw [translate_core, apply_parsed]
          rw [List.getD_eq_getElem _ _ hzl, List.getElem_zipWith]
          cases hcell : (fillParsed texts objs)[i] with
          | none =>
            left
            rw [List.getD_eq_getElem _ _ hi]
            rfl
          | some t =>
            right
            simp only [providerGave, if_pos hapi]
            refine fillParsed_mem texts objs i t ?_
            rw [List.getD_eq_getElem _ _ hfill, hcell]
    · rw [if_neg hapi]
      have hml : (texts.mapIdx fun j t => (google j).getD t).length = texts.length :=
        List.length_mapIdx
      refine ⟨hml, ?_⟩
      intro i hi
      have hmi : i < (texts.mapIdx fun j t => (google j).getD t).length := by
        rw [hml]
        exact hi
      rw [List.getD_eq_getElem _ _ hmi, List.getElem_mapIdx]
      cases hg : google i with
      | none =>
        left
        rw [List.getD_eq_getElem _ _ hi]
        rfl
      | some tr =>
        right
        simp only [providerGave, if_neg hapi, Option.getD_some]
        exact hg

/-- Witness for C10 at a concrete input: a one-item batch with a parsed,
aligned response. -/
theorem c10_translate_alignment_witness :
    (((translate_batch "ChatGPT" "k" ["Hi"] "zh" "" false none none
        (.parsed [(some 0, some "NH")]) (fun _ => none) .unparsable (fun _ => none)
        simConst).1).length = (["Hi"] : List String).length)
    ∧ (((translate_batch "ChatGPT" "k" ["Hi"] "zh" "" false none none
          (.parsed [(some 0, some "NH")]) (fun _ => none) .unparsable (fun _ => none)
          simConst).1).getD 0 "" = (["Hi"] : List String).getD 0 ""
        ∨ providerGave "ChatGPT" (.parsed [(some 0, some "NH")]) (fun _ => none) 0
            (((translate_batch "ChatGPT" "k" ["Hi"] "zh" "" false none none
                (.parsed [(some 0, some "NH")]) (fun _ => none) .unparsable (fun _ => none)
                simConst).1).getD 0 "")) :=
  ⟨(c10_translate_alignment "ChatGPT" "k" ["Hi"] "zh" "" false none none
      (.parsed [(some 0, some "NH")]) (fun _ => none) .unparsable (fun _ => none)
      simConst).1,
   (c10_translate_alignment "ChatGPT" "k" ["Hi"] "zh" "" false none none
      (.parsed [(some 0, some "NH")]) (fun _ => none) .unparsable (fun _ => none)
      simConst).2 0 (by decide)⟩

/-! ## Lemmas about the batch worker write-back -/

theorem writeOptAt_length :
    ∀ (arr : List String) (buf : List (Option String)) (s : Nat),
      (writeOptAt buf s arr).length = buf.length := by
  intro arr
  induction arr with
  | nil => intro buf s; rfl
  | cons t rest ih =>
    intro buf s
    rw [writeOptAt, ih, List.length_set]

theorem writeOptAt_getD :
    ∀ (arr : List String) (buf : List (Option String)) (s i : Nat), i < buf.length →
      (writeOptAt buf s arr).getD i none
        = if s ≤ i ∧ i < s + arr.length then some (arr.getD (i - s) "")
          else buf.getD i none := by
  intro arr
  induction arr with
  | nil =>
    intro buf s i h
    rw [writeOptAt, if_neg (by simp only [List.length_nil]; omega)]
  | cons t rest ih =>
    intro buf s i h
    rw [writeOptAt]
    rw [ih (buf.set s (some t)) (s + 1) i (by rw [List.length_set]; exact h)]
    by_cases h1 : s + 1 ≤ i ∧ i < s + 1 + rest.length
    · rw [if_pos h1, if_pos (by simp only [List.length_cons]; omega)]
      have h2 : i - s = (i - (s + 1)) + 1 := by omega
      rw [h2, List.getD_cons_succ]
    · rw [if_neg h1]
      by_cases h2 : i = s
      · subst h2
        rw [if_pos (by simp only [List.length_cons]; omega)]
        rw [List.getD_eq_getElem?_getD, List.getElem?_set, if_pos rfl, if_pos h]
        simp
      · rw [if_neg (by simp only [List.length_cons]; omega)]
        rw [List.getD_eq_getElem?_getD, List.getElem?_set, if_neg (by omega),
          ← List.getD_eq_getElem?_getD]

theorem translate_batch_fst_length (api key : String) (texts : List String)
    (targetLang userPrompt : String) (backCheck : Bool) (backApi backKey : Option String)
    (chat : ChatResp) (google : Nat → Option String)
    (backChat : ChatResp) (backGoogle : Nat → Option String) (sim : String → String → ℚ) :
    ((translate_batch api key texts targetLang userPrompt backCheck backApi backKey
        chat google backChat backGoogle sim).1).length = texts.length := by
  by_cases hempty : texts = []
  · subst hempty
    rfl
  · have hfst : (translate_batch api key texts targetLang userPrompt backCheck backApi backKey
        chat google backChat backGoogle sim).1
        = (if api ∈ chatApis then (if key = "" then texts else translate_core texts chat)
           else texts.mapIdx (fun i t => (google i).getD t)) := by
      rw [translate_batch.eq_def, if_neg hempty]
    rw [hfst]
    by_cases hapi : api ∈ chatApis
    · rw [if_pos hapi]
      by_cases hkey : key = ""
      · rw [if_pos hkey]
      · rw [if_neg hkey]
        cases chat with
        | raised => rfl
        | unparsable => rfl
        | parsed objs =>
          rw [translate_core, apply_parsed, List.length_zipWith, fillParsed_length]
          omega
    · rw [if_neg hapi]
      exact List.length_mapIdx

theorem process_batch_fst_length (api key target prompt : String) (backCheck : Bool)
    (sim : String → String → ℚ) (env : CallEnv) (texts : List String) :
    (process_batch api key target prompt backCheck sim env texts).1.length = texts.length := by
  rw [process_batch]
  split
  · rfl
  · exact translate_batch_fst_length api key texts target prompt backCheck none none
      env.chat env.google env.backChat env.backGoogle sim

theorem fillParsed_all_none (texts : List String) (objs : List (Option Int × Option String))
    (hobj : ∀ o ∈ objs, ∀ idx : Int, o.1 = some idx → 0 ≤ idx → idx < (texts.length : Int)
      → o.2 = none) :
    ∀ i, (fillParsed texts objs).getD i none = none := by
  unfold fillParsed
  refine @List.foldlRecOn (List (Option String)) (Option Int × Option String)
    (fun acc => ∀ i, acc.getD i none = none) objs _ (List.replicate texts.length none) ?_ ?_
  · intro i
    rw [List.getD_eq_getElem?_getD, List.getElem?_replicate]
    split <;> rfl
  · intro b hb a ha
    rcases a with ⟨a1, a2⟩
    rcases a1 with _ | idx
    · exact hb
    · dsimp only
      by_cases hcond : 0 ≤ idx ∧ idx < (texts.length : Int)
      · rw [if_pos hcond]
        have ha2 : a2 = none := hobj (some idx, a2) ha idx rfl hcond.1 hcond.2
        subst ha2
        intro i
        rw [List.getD_eq_getElem?_getD, List.getElem?_set]
        split
        · split
          · rfl
          · rfl
        · rw [← List.getD_eq_getElem?_getD]
          exact hb i
      · rw [if_neg hcond]
        exact hb

theorem apply_parsed_fallback (texts : List String) (objs : List (Option Int × Option String))
    (hobj : ∀ o ∈ objs, ∀ idx : Int, o.1 = some idx → 0 ≤ idx → idx < (texts.length : Int)
      → o.2 = none) :
    apply_parsed texts objs = texts := by
  apply List.ext_getElem
  · rw [apply_parsed, List.length_zipWith, fillParsed_length]
    omega
  · intro i h1 h2
    simp only [apply_parsed, List.getElem_zipWith]
    have hfl : i < (fillParsed texts objs).length := by
      rw [fillParsed_length]
      exact h2
    have := fillParsed_all_none texts objs hobj i
    rw [List.getD_eq_getElem _ _ hfl] at this
    rw [this]
    rfl

theorem google_fallback (texts : List String) (google : Nat → Option String)
    (hg : ∀ i, i < texts.length → google i = none) :
    (texts.mapIdx (fun i t => (google i).getD t)) = texts := by
  apply List.ext_getElem
  · exact List.length_mapIdx
  · intro i h1 h2
    rw [List.getElem_mapIdx, hg i h2]
    rfl

theorem process_batch_fallback (api key target prompt : String) (backCheck : Bool)
    (sim : String → String → ℚ) (env : CallEnv) (texts : List String)
    (hfail : BatchFails api texts env) :
    (process_batch api key target prompt backCheck sim env texts).1 = texts := by
  by_cases hr : env.raises = true
  · rw [process_batch, if_pos hr]
  · rw [process_batch, if_neg hr]
    by_cases hempty : texts = []
    · subst hempty
      rfl
    · have hfst : (translate_batch api key texts target prompt backCheck none none
          env.chat env.google env.backChat env.backGoogle sim).1
          = (if api ∈ chatApis then (if key = "" then texts else translate_core texts env.chat)
             else texts.mapIdx (fun i t => (env.google i).getD t)) := by
        rw [translate_batch.eq_def, if_neg hempty]
      rw [hfst]
      rcases hfail with hfail | ⟨hapi, hchat⟩ | ⟨hapi, hg⟩
      · exact absurd hfail hr
      · rw [if_pos hapi]
        by_cases hkey : key = ""
        · rw [if_pos hkey]
        · rw [if_neg hkey]
          rcases hchat with h | h | ⟨objs, hobjs, hforall⟩
          · rw [h]
            rfl
          · rw [h]
            rfl
          · rw [hobjs, translate_core]
            exact apply_parsed_fallback texts objs hforall
      · rw [if_neg hapi]
        exact google_fallback texts env.google hg

theorem chain_batchesWF (texts : List String) :
    ∀ (bs : List (Nat × Nat × List String)) (s : Nat),
      ChainFrom texts s texts.length bs → BatchesWF texts.length s bs := by
  intro bs
  induction bs with
  | nil => intro s h; trivial
  | cons b rest ih =>
    intro s h
    rcases b with ⟨a, e, sl⟩
    rw [ChainFrom] at h
    obtain ⟨ha, hlt, hle, hsl, hrest⟩ := h
    subst ha
    refine ⟨le_refl _, hlt, hle, ?_, ih e hrest⟩
    rw [hsl]
    simp only [List.length_take, List.length_drop]
    omega

theorem batchesWF_start_le (n : Nat) :
    ∀ (bs : List (Nat × Nat × List String)) (s0 : Nat), BatchesWF n s0 bs →
      ∀ j (hj : j < bs.length), s0 ≤ (bs.get ⟨j, hj⟩).1 := by
  intro bs
  induction bs with
  | nil => intro s0 h j hj; simp at hj
  | cons b rest ih =>
    intro s0 h j hj
    rcases b with ⟨a, e, sl⟩
    obtain ⟨h1, h2, h3, h4, h5⟩ := h
    match j with
    | 0 => exact h1
    | j' + 1 =>
      have := ih e h5 j' (by simpa using hj)
      simp only [List.get_cons_succ]
      omega

theorem slice_getD (texts : List String) (s e i : Nat) (hse : s ≤ i) (hie : i < e)
    (hen : e ≤ texts.length) :
    ((texts.drop s).take (e - s)).getD (i - s) "" = texts.getD i "" := by
  have h1 : i - s < ((texts.drop s).take (e - s)).length := by
    simp only [List.length_take, List.length_drop]
    omega
  rw [List.getD_eq_getElem _ _ h1, List.getD_eq_getElem _ _ (by omega : i < texts.length)]
  rw [List.getElem_take, List.getElem_drop]
  congr 1
  omega

theorem run_batches_spec (api key target prompt : String) (backCheck : Bool)
    (sim : String → String → ℚ) (envs : Nat → CallEnv) (n : Nat) :
    ∀ (bs : List (Nat × Nat × List String)) (s0 k : Nat) (st : PartRun),
      BatchesWF n s0 bs → st.results.length = n →
      ((run_batches api key target prompt backCheck sim envs bs k st).results.length = n)
      ∧ (∀ i, i < n →
          (∀ j (hj : j < bs.length), ¬((bs.get ⟨j, hj⟩).1 ≤ i ∧ i < (bs.get ⟨j, hj⟩).2.1)) →
          (run_batches api key target prompt backCheck sim envs bs k st).results.getD i none
            = st.results.getD i none)
      ∧ (∀ j (hj : j < bs.length), ∀ i,
          (bs.get ⟨j, hj⟩).1 ≤ i → i < (bs.get ⟨j, hj⟩).2.1 →
          (run_batches api key target prompt backCheck sim envs bs k st).results.getD i none
            = some ((process_batch api key target prompt backCheck sim (envs (k + j))
                (bs.get ⟨j, hj⟩).2.2).1.getD (i - (bs.get ⟨j, hj⟩).1) "")) := by
  intro bs
  induction bs with
  | nil =>
    intro s0 k st hwf hst
    refine ⟨hst, fun i hi hnone => rfl, ?_⟩
    intro j hj
    simp at hj
  | cons hd rest ih =>
    intro s0 k st hwf hst
    rcases hd with ⟨a, e, sl⟩
    obtain ⟨hs0a, hae, hen, hsl, hrest⟩ := hwf
    rw [run_batches]
    have hlentrans : (process_batch api key target prompt backCheck sim (envs k) sl).1.length
        = sl.length := process_batch_fst_length api key target prompt backCheck sim (envs k) sl
    have hst'len : (work_batch api key target prompt backCheck sim (envs k) st (a, e, sl)).results.length
        = n := by
      rw [work_batch]
      dsimp only
      rw [writeOptAt_length]
      exact hst
    obtain ⟨IH1, IH2, IH3⟩ := ih e (k + 1)
      (work_batch api key target prompt backCheck sim (envs k) st (a, e, sl)) hrest hst'len
    refine ⟨IH1, ?_, ?_⟩
    · intro i hi hnone
      have hnrest : ∀ j (hj : j < rest.length),
          ¬((rest.get ⟨j, hj⟩).1 ≤ i ∧ i < (rest.get ⟨j, hj⟩).2.1) := by
        intro j hj
        exact hnone (j + 1) (Nat.succ_lt_succ hj)
      rw [IH2 i hi hnrest]
      have hhead : ¬(a ≤ i ∧ i < e) := hnone 0 (Nat.succ_pos _)
      rw [work_batch]
      dsimp only
      rw [writeOptAt_getD _ _ _ _ (by rw [hst]; exact hi)]
      rw [if_neg (by rw [hlentrans, hsl]; omega)]
    · intro j hj i hia hie
      match j, hj, hia, hie with
      | 0, hj, hia, hie =>
        have hia0 : a ≤ i := hia
        have hie0 : i < e := hie
        have hstart := batchesWF_start_le n rest e hrest
        have hnrest : ∀ j' (hj' : j' < rest.length),
            ¬((rest.get ⟨j', hj'⟩).1 ≤ i ∧ i < (rest.get ⟨j', hj'⟩).2.1) := by
          intro j' hj'
          have := hstart j' hj'
          omega
        rw [IH2 i (by omega) hnrest]
        rw [work_batch]
        dsimp only
        rw [writeOptAt_getD _ _ _ _ (by rw [hst]; omega)]
        rw [if_pos (by rw [hlentrans, hsl]; omega)]
        show _ = some ((process_batch api key target prompt backCheck sim (envs (k + 0))
          sl).1.getD (i - a) "")
        rw [Nat.add_zero]
      | j' + 1, hj, hia, hie =>
        have hj'' : j' < rest.length := Nat.lt_of_succ_lt_succ hj
        have hia' : (rest.get ⟨j', hj''⟩).1 ≤ i := hia
        have hie' : i < (rest.get ⟨j', hj''⟩).2.1 := hie
        have hres := IH3 j' hj'' i hia' hie'
        have hk : k + 1 + j' = k + (j' + 1) := by omega
        rw [hk] at hres
        exact hres

theorem chain_get (texts : List String) :
    ∀ (bs : List (Nat × Nat × List String)) (s n : Nat), ChainFrom texts s n bs →
      ∀ j (hj : j < bs.length),
        s ≤ (bs.get ⟨j, hj⟩).1
        ∧ (bs.get ⟨j, hj⟩).1 < (bs.get ⟨j, hj⟩).2.1
        ∧ (bs.get ⟨j, hj⟩).2.1 ≤ n
        ∧ (bs.get ⟨j, hj⟩).2.2
            = (texts.drop (bs.get ⟨j, hj⟩).1).take ((bs.get ⟨j, hj⟩).2.1 - (bs.get ⟨j, hj⟩).1) := by
  intro bs
  induction bs with
  | nil => intro s n h j hj; simp at hj
  | cons b rest ih =>
    intro s n h j hj
    rcases b with ⟨a, e, sl⟩
    rw [ChainFrom] at h
    obtain ⟨ha, hlt, hle, hsl, hrest⟩ := h
    match j, hj with
    | 0, hj => exact ⟨Nat.le_of_eq ha.symm, ha ▸ hlt, hle, hsl⟩
    | j' + 1, hj =>
      have hj' : j' < rest.length := Nat.lt_of_succ_lt_succ hj
      have hr := ih e n hrest j' hj'
      have h1 : s ≤ (rest.get ⟨j', hj'⟩).1 := Nat.le_trans (Nat.le_of_lt hlt) hr.1
      exact ⟨h1, hr.2.1, hr.2.2.1, hr.2.2.2⟩

theorem output_getD (res : List (Option String)) (entries : List String)
    (hlen : res.length = entries.length) (i : Nat) (hi : i < entries.length) :
    (List.zipWith (fun o t => o.getD t) res entries).getD i ""
      = (res.getD i none).getD (entries.getD i "") := by
  have hz : i < (List.zipWith (fun o t => o.getD t) res entries).length := by
    rw [List.length_zipWith, hlen, Nat.min_self]
    exact hi
  rw [List.getD_eq_getElem _ _ hz, List.getElem_zipWith,
    List.getD_eq_getElem _ _ (show i < res.length by omega),
    List.getD_eq_getElem _ _ hi]

/-- C4: when the provider call for one batch fails (raises, response
unparsable, indices unalignable, or every per-item fallback request
failing), every index of that batch receives its original source text in
the flushed part, while every other queued batch is still processed and
written normally. -/
theorem c4_failed_batch_fallback (entries : List String) (mode : String)
    (maxTokens manualTokens : Int) (api key target prompt : String) (backCheck : Bool)
    (sim : String → String → ℚ) (envs : Nat → CallEnv) (kf : Nat)
    (hk : kf < (split_into_batches entries mode maxTokens manualTokens).length)
    (hfail : BatchFails api
      ((split_into_batches entries mode maxTokens manualTokens).get ⟨kf, hk⟩).2.2 (envs kf)) :
    (part_output entries mode maxTokens manualTokens api key target prompt
        backCheck sim envs).length = entries.length
    ∧ (∀ i, ((split_into_batches entries mode maxTokens manualTokens).get ⟨kf, hk⟩).1 ≤ i →
        i < ((split_into_batches entries mode maxTokens manualTokens).get ⟨kf, hk⟩).2.1 →
        (part_output entries mode maxTokens manualTokens api key target prompt
            backCheck sim envs).getD i "" = entries.getD i "")
    ∧ (∀ j (hj : j < (split_into_batches entries mode maxTokens manualTokens).length), ∀ i,
        ((split_into_batches entries mode maxTokens manualTokens).get ⟨j, hj⟩).1 ≤ i →
        i < ((split_into_batches entries mode maxTokens manualTokens).get ⟨j, hj⟩).2.1 →
        (part_output entries mode maxTokens manualTokens api key target prompt
            backCheck sim envs).getD i ""
          = ((process_batch api key target prompt backCheck sim (envs j)
              ((split_into_batches entries mode maxTokens manualTokens).get ⟨j, hj⟩).2.2).1).getD
              (i - ((split_into_batches entries mode maxTokens manualTokens).get ⟨j, hj⟩).1)
              "") := by
  have hchain := split_chain entries mode maxTokens manualTokens
  have hwf := chain_batchesWF entries
    (split_into_batches entries mode maxTokens manualTokens) 0 hchain
  obtain ⟨R1, R2, R3⟩ := run_batches_spec api key target prompt backCheck sim envs
    entries.length (split_into_batches entries mode maxTokens manualTokens) 0 0
    { results := List.replicate entries.length none, backChecks := [], warnings := []
      done := 0 } hwf (by simp)
  have hget := chain_get entries (split_into_batches entries mode maxTokens manualTokens)
    0 entries.length hchain
  have houtlen : (part_output entries mode maxTokens manualTokens api key target prompt
      backCheck sim envs).length = entries.length := by
    rw [part_output, part_run, List.length_zipWith, R1, Nat.min_self]
  have hval : ∀ j (hj : j < (split_into_batches entries mode maxTokens manualTokens).length),
      ∀ i, ((split_into_batches entries mode maxTokens manualTokens).get ⟨j, hj⟩).1 ≤ i →
      i < ((split_into_batches entries mode maxTokens manualTokens).get ⟨j, hj⟩).2.1 →
      (part_output entries mode maxTokens manualTokens api key target prompt
          backCheck sim envs).getD i ""
        = ((process_batch api key target prompt backCheck sim (envs j)
            ((split_into_batches entries mode maxTokens manualTokens).get ⟨j, hj⟩).2.2).1).getD
            (i - ((split_into_batches entries mode maxTokens manualTokens).get ⟨j, hj⟩).1)
            "" := by
    intro j hj i hia hie
    have hb := hget j hj
    have hin : i < entries.length := Nat.lt_of_lt_of_le hie hb.2.2.1
    rw [part_output, part_run, output_getD _ _ R1 i hin]
    have := R3 j hj i hia hie
    rw [Nat.zero_add] at this
    rw [this]
    rfl
  refine ⟨houtlen, ?_, hval⟩
  intro i hia hie
  have hb := hget kf hk
  have hin : i < entries.length := Nat.lt_of_lt_of_le hie hb.2.2.1
  rw [hval kf hk i hia hie]
  rw [process_batch_fallback api key target prompt backCheck sim (envs kf) _ hfail]
  rw [hb.2.2.2]
  exact slice_getD entries _ _ i hia hie hb.2.2.1

/-- Witness for C4 at a concrete input: two batches, the first one's
provider call raising. -/
theorem c4_failed_batch_fallback_witness :
    0 < (split_into_batches ["aaaa", "bbbb"] "auto" 1 0).length
    ∧ (part_output ["aaaa", "bbbb"] "auto" 1 0 "ChatGPT" "k" "zh" "" false
        simConst envsFirstFails).length = 2
    ∧ (part_output ["aaaa", "bbbb"] "auto" 1 0 "ChatGPT" "k" "zh" "" false
        simConst envsFirstFails).getD 0 "" = "aaaa" := by
  have hsplit : split_into_batches ["aaaa", "bbbb"] "auto" 1 0
      = [(0, 1, ["aaaa"]), (1, 2, ["bbbb"])] := by
    simp +decide [split_into_batches, split_auto_go, batchTake, estimate_tokens]
  have hk : 0 < (split_into_batches ["aaaa", "bbbb"] "auto" 1 0).length := by
    rw [hsplit]
    decide
  have e0 : (split_into_batches ["aaaa", "bbbb"] "auto" 1 0).get ⟨0, hk⟩
      = (0, 1, ["aaaa"]) := by
    rw [List.get_eq_getElem, ← List.getD_eq_getElem _ (0, 0, ([] : List String)) hk, hsplit]
    rfl
  have hfail : BatchFails "ChatGPT"
      ((split_into_batches ["aaaa", "bbbb"] "auto" 1 0).get ⟨0, hk⟩).2.2
      (envsFirstFails 0) := Or.inl rfl
  obtain ⟨h1, h2, h3⟩ := c4_failed_batch_fallback ["aaaa", "bbbb"] "auto" 1 0
    "ChatGPT" "k" "zh" "" false simConst envsFirstFails 0 hk hfail
  refine ⟨hk, h1, ?_⟩
  have := h2 0 (by rw [e0]) (by rw [e0]; decide)
  rw [this]
  rfl

/-! ## Lemmas for the back-translation frame property -/

theorem translate_batch_fst_eq (api key : String) (texts : List String)
    (targetLang userPrompt : String) (bc1 bc2 : Bool) (ba1 ba2 bk1 bk2 : Option String)
    (chat : ChatResp) (google : Nat → Option String)
    (bchat1 bchat2 : ChatResp) (bgoogle1 bgoogle2 : Nat → Option String)
    (sim1 sim2 : String → String → ℚ) :
    (translate_batch api key texts targetLang userPrompt bc1 ba1 bk1
        chat google bchat1 bgoogle1 sim1).1
      = (translate_batch api key texts targetLang userPrompt bc2 ba2 bk2
          chat google bchat2 bgoogle2 sim2).1 := by
  by_cases hempty : texts = []
  · subst hempty
    rfl
  · have h1 : (translate_batch api key texts targetLang userPrompt bc1 ba1 bk1
        chat google bchat1 bgoogle1 sim1).1
        = (if api ∈ chatApis then (if key = "" then texts else translate_core texts chat)
           else texts.mapIdx (fun i t => (google i).getD t)) := by
      rw [translate_batch.eq_def, if_neg hempty]
    have h2 : (translate_batch api key texts targetLang userPrompt bc2 ba2 bk2
        chat google bchat2 bgoogle2 sim2).1
        = (if api ∈ chatApis then (if key = "" then texts else translate_core texts chat)
           else texts.mapIdx (fun i t => (google i).getD t)) := by
      rw [translate_batch.eq_def, if_neg hempty]
    rw [h1, h2]

theorem process_batch_fst_eq (api key target prompt : String) (bc1 bc2 : Bool)
    (sim1 sim2 : String → String → ℚ) (env1 env2 : CallEnv) (texts : List String)
    (hr : env1.raises = env2.raises) (hc : env1.chat = env2.chat)
    (hg : env1.google = env2.google) :
    (process_batch api key target prompt bc1 sim1 env1 texts).1
      = (process_batch api key target prompt bc2 sim2 env2 texts).1 := by
  rw [process_batch, process_batch, ← hr]
  by_cases h : env1.raises = true
  · rw [if_pos h, if_pos h]
  · rw [if_neg h, if_neg h, hc, hg]
    exact translate_batch_fst_eq api key texts target prompt bc1 bc2 none none none none
      env2.chat env2.google env1.backChat env2.backChat env1.backGoogle env2.backGoogle
      sim1 sim2

theorem run_batches_results_eq (api key target prompt : String) (bc1 bc2 : Bool)
    (sim1 sim2 : String → String → ℚ) (envs1 envs2 : Nat → CallEnv)
    (hfront : ∀ k, (envs1 k).raises = (envs2 k).raises ∧ (envs1 k).chat = (envs2 k).chat
      ∧ (envs1 k).google = (envs2 k).google) :
    ∀ (bs : List (Nat × Nat × List String)) (k : Nat) (st1 st2 : PartRun),
      st1.results = st2.results →
      (run_batches api key target prompt bc1 sim1 envs1 bs k st1).results
        = (run_batches api key target prompt bc2 sim2 envs2 bs k st2).results := by
  intro bs
  induction bs with
  | nil => intro k st1 st2 h; exact h
  | cons hd rest ih =>
    intro k st1 st2 h
    rcases hd with ⟨a, e, sl⟩
    rw [run_batches, run_batches]
    refine ih (k + 1) _ _ ?_
    rw [work_batch, work_batch]
    dsimp only
    rw [h, process_batch_fst_eq api key target prompt bc1 bc2 sim1 sim2
      (envs1 k) (envs2 k) sl (hfront k).1 (hfront k).2.1 (hfront k).2.2]

theorem run_batches_warnings_inv (api key target prompt : String) (backCheck : Bool)
    (sim : String → String → ℚ) (envs : Nat → CallEnv) :
    ∀ (bs : List (Nat × Nat × List String)) (k : Nat) (st : PartRun),
      st.warnings = (st.backChecks.filter (fun r => r.2.2 < (6 : ℚ)/10)).map
        (fun r => (r.1, r.2.2)) →
      (run_batches api key target prompt backCheck sim envs bs k st).warnings
        = ((run_batches api key target prompt backCheck sim envs bs k st).backChecks.filter
            (fun r => r.2.2 < (6 : ℚ)/10)).map (fun r => (r.1, r.2.2)) := by
  intro bs
  induction bs with
  | nil => intro k st h; exact h
  | cons hd rest ih =>
    intro k st h
    rcases hd with ⟨a, e, sl⟩
    rw [run_batches]
    refine ih (k + 1) _ ?_
    rw [work_batch]
    dsimp only
    rw [List.filter_append, List.map_append, ← h]
    congr 1
    rw [List.filter_map]
    rw [List.map_map]
    rfl

/-- C9: the texts flushed to the translated part are a function of the
forward provider outcomes only — switching the back-check flag, the
similarity oracle, or the back-translation responses never changes them —
and a similarity score below 0.6 contributes exactly one warning-log entry,
derived from the side-channel back-check records. -/
theorem c9_backcheck_frame (entries : List String) (mode : String)
    (maxTokens manualTokens : Int) (api key target prompt : String)
    (bc1 bc2 : Bool) (sim1 sim2 : String → String → ℚ) (envs1 envs2 : Nat → CallEnv)
    (hfront : ∀ k, (envs1 k).raises = (envs2 k).raises ∧ (envs1 k).chat = (envs2 k).chat
      ∧ (envs1 k).google = (envs2 k).google) :
    part_output entries mode maxTokens manualTokens api key target prompt bc1 sim1 envs1
      = part_output entries mode maxTokens manualTokens api key target prompt bc2 sim2 envs2
    ∧ (part_run entries mode maxTokens manualTokens api key target prompt
        bc1 sim1 envs1).warnings
      = ((part_run entries mode maxTokens manualTokens api key target prompt
            bc1 sim1 envs1).backChecks.filter
          (fun r => r.2.2 < (6 : ℚ)/10)).map (fun r => (r.1, r.2.2)) := by
  constructor
  · rw [part_output, part_output, part_run, part_run]
    rw [run_batches_results_eq api key target prompt bc1 bc2 sim1 sim2 envs1 envs2 hfront
      _ 0 _ _ rfl]
  · rw [part_run]
    exact run_batches_warnings_inv api key target prompt bc1 sim1 envs1 _ 0 _ rfl

/-- Witness for C9 at a concrete input. -/
theorem c9_backcheck_frame_witness :
    (∀ k, (envsAllUnparsed k).raises = (envsAllUnparsed k).raises
      ∧ (envsAllUnparsed k).chat = (envsAllUnparsed k).chat
      ∧ (envsAllUnparsed k).google = (envsAllUnparsed k).google)
    ∧ (part_output ["aaaa"] "auto" 10 10 "ChatGPT" "k" "zh" "" true simConst envsAllUnparsed
        = part_output ["aaaa"] "auto" 10 10 "ChatGPT" "k" "zh" "" false simZero envsAllUnparsed
      ∧ (part_run ["aaaa"] "auto" 10 10 "ChatGPT" "k" "zh" "" true simConst
            envsAllUnparsed).warnings
        = ((part_run ["aaaa"] "auto" 10 10 "ChatGPT" "k" "zh" "" true simConst
              envsAllUnparsed).backChecks.filter
            (fun r => r.2.2 < (6 : ℚ)/10)).map (fun r => (r.1, r.2.2))) :=
  ⟨fun k => ⟨rfl, rfl, rfl⟩,
   c9_backcheck_frame ["aaaa"] "auto" 10 10 "ChatGPT" "k" "zh" "" true false
     simConst simZero envsAllUnparsed envsAllUnparsed
     (fun k => ⟨rfl, rfl, rfl⟩)⟩

/-! ## Lemmas for the worker pause/stop loop -/

theorem chain_sum (texts : List String) :
    ∀ (bs : List (Nat × Nat × List String)) (s n : Nat), ChainFrom texts s n bs →
      s + ((bs.map (fun b => b.2.1 - b.1)).sum) = n := by
  intro bs
  induction bs with
  | nil =>
    intro s n h
    rw [ChainFrom] at h
    simpa using h
  | cons b rest ih =>
    intro s n h
    rcases b with ⟨a, e, sl⟩
    rw [ChainFrom] at h
    obtain ⟨ha, hlt, hle, _, hrest⟩ := h
    have := ih e n hrest
    simp only [List.map_cons, List.sum_cons]
    omega

theorem worker_run_invariant (entries : List String) (mode : String)
    (maxTokens manualTokens : Int) (api key target prompt : String) (backCheck : Bool)
    (sim : String → String → ℚ) (envs : Nat → CallEnv) (flags : Nat → Bool × Bool)
    (hstop : ∀ t, (flags t).1 = false) :
    ∀ t,
      ((worker_run entries mode maxTokens manualTokens api key target prompt backCheck
          sim envs flags t).part.done
        + (((worker_run entries mode maxTokens manualTokens api key target prompt backCheck
            sim envs flags t).queue.map (fun b => b.2.1 - b.1)).sum) = entries.length)
      ∧ ((worker_run entries mode maxTokens manualTokens api key target prompt backCheck
          sim envs flags t).exited = true →
        (worker_run entries mode maxTokens manualTokens api key target prompt backCheck
          sim envs flags t).queue = []) := by
  intro t
  induction t with
  | zero =>
    constructor
    · have := chain_sum entries (split_into_batches entries mode maxTokens manualTokens)
        0 entries.length (split_chain entries mode maxTokens manualTokens)
      simpa [worker_run] using this
    · intro h
      simp [worker_run] at h
  | succ t ih =>
    obtain ⟨ih1, ih2⟩ := ih
    rw [worker_run, worker_step]
    by_cases hex : (worker_run entries mode maxTokens manualTokens api key target prompt
        backCheck sim envs flags t).exited = true
    · rw [if_pos hex]
      exact ⟨ih1, ih2⟩
    · rw [if_neg hex, hstop t, if_neg (by simp)]
      by_cases hp : (flags t).2 = true
      · rw [hp, if_pos rfl]
        exact ⟨ih1, ih2⟩
      · rw [if_neg hp]
        cases hq : (worker_run entries mode maxTokens manualTokens api key target prompt
            backCheck sim envs flags t).queue with
        | nil =>
          rw [hq] at ih1
          simp only [List.map_nil, List.sum_nil] at ih1
          exact ⟨by simpa using ih1, fun _ => rfl⟩
        | cons b rest =>
          rcases b with ⟨a, e, sl⟩
          rw [hq] at ih1
          simp only [List.map_cons, List.sum_cons] at ih1
          constructor
          · dsimp only
            rw [work_batch]
            dsimp only
            omega
          · intro h
            simp at h

theorem worker_run_drains (entries : List String) (mode : String)
    (maxTokens manualTokens : Int) (api key target prompt : String) (backCheck : Bool)
    (sim : String → String → ℚ) (envs : Nat → CallEnv) (flags : Nat → Bool × Bool)
    (hstop : ∀ t, (flags t).1 = false) (t0 : Nat)
    (hquiet : ∀ u, t0 ≤ u → (flags u).2 = false) :
    ∀ (L t : Nat), t0 ≤ t →
      (worker_run entries mode maxTokens manualTokens api key target prompt backCheck
        sim envs flags t).queue.length = L →
      (worker_run entries mode maxTokens manualTokens api key target prompt backCheck
        sim envs flags (t + L)).queue = [] := by
  intro L
  induction L with
  | zero =>
    intro t ht hlen
    simpa using List.eq_nil_of_length_eq_zero hlen
  | succ L ih =>
    intro t ht hlen
    have hstep : (worker_run entries mode maxTokens manualTokens api key target prompt backCheck
        sim envs flags (t + 1)).queue.length = L := by
      rw [worker_run, worker_step]
      by_cases hex : (worker_run entries mode maxTokens manualTokens api key target prompt
          backCheck sim envs flags t).exited = true
      · have := (worker_run_invariant entries mode maxTokens manualTokens api key target
          prompt backCheck sim envs flags hstop t).2 hex
        rw [this] at hlen
        simp at hlen
      · rw [if_neg hex, hstop t, if_neg (by simp), hquiet t ht, if_neg (by simp)]
        cases hq : (worker_run entries mode maxTokens manualTokens api key target prompt
            backCheck sim envs flags t).queue with
        | nil =>
          rw [hq] at hlen
          simp at hlen
        | cons b rest =>
          rw [hq] at hlen
          simp only [List.length_cons] at hlen
          simpa using hlen
    have := ih (t + 1) (by omega) hstep
    have harith : t + 1 + L = t + (L + 1) := by omega
    rw [harith] at this
    exact this

/-- C7: while the pause flag is set at a poll, the `done` counter does not
change over that iteration; and if stop is never signalled and pause is
eventually cleared forever, `done` eventually reaches the part's total. -/
theorem c7_pause_resume (entries : List String) (mode : String)
    (maxTokens manualTokens : Int) (api key target prompt : String) (backCheck : Bool)
    (sim : String → String → ℚ) (envs : Nat → CallEnv) (flags : Nat → Bool × Bool)
    (hstop : ∀ t, (flags t).1 = false)
    (m : Nat) (hresume : ∀ t, m ≤ t → (flags t).2 = false) :
    (∀ t, (flags t).2 = true →
      (worker_run entries mode maxTokens manualTokens api key target prompt backCheck
        sim envs flags (t + 1)).part.done
      = (worker_run entries mode maxTokens manualTokens api key target prompt backCheck
        sim envs flags t).part.done)
    ∧ (∃ K, (worker_run entries mode maxTokens manualTokens api key target prompt backCheck
        sim envs flags K).part.done = entries.length) := by
  constructor
  · intro t hp
    rw [worker_run, worker_step]
    by_cases hex : (worker_run entries mode maxTokens manualTokens api key target prompt
        backCheck sim envs flags t).exited = true
    · rw [if_pos hex]
    · rw [if_neg hex]
      by_cases hs : (flags t).1 = true
      · rw [hs, if_pos rfl]
      · rw [if_neg hs, hp, if_pos rfl]
  · refine ⟨m + (worker_run entries mode maxTokens manualTokens api key target prompt
      backCheck sim envs flags m).queue.length, ?_⟩
    have hempty := worker_run_drains entries mode maxTokens manualTokens api key target
      prompt backCheck sim envs flags hstop m hresume
      (worker_run entries mode maxTokens manualTokens api key target prompt backCheck
        sim envs flags m).queue.length m (le_refl m) rfl
    have hinv := (worker_run_invariant entries mode maxTokens manualTokens api key target
      prompt backCheck sim envs flags hstop
      (m + (worker_run entries mode maxTokens manualTokens api key target prompt backCheck
        sim envs flags m).queue.length)).1
    rw [hempty] at hinv
    simpa using hinv

/-- Witness for C7 at a concrete input: one item, flags never set. -/
theorem c7_pause_resume_witness :
    (∀ t, (flagsNone t).1 = false)
    ∧ (∀ t, 0 ≤ t → (flagsNone t).2 = false)
    ∧ ((∀ t, (flagsNone t).2 = true →
        (worker_run ["aaaa"] "auto" 10 10 "ChatGPT" "k" "zh" "" false simConst
          envsAllUnparsed flagsNone (t + 1)).part.done
        = (worker_run ["aaaa"] "auto" 10 10 "ChatGPT" "k" "zh" "" false simConst
          envsAllUnparsed flagsNone t).part.done)
      ∧ (∃ K, (worker_run ["aaaa"] "auto" 10 10 "ChatGPT" "k" "zh" "" false simConst
          envsAllUnparsed flagsNone K).part.done = (["aaaa"] : List String).length)) :=
  ⟨fun _ => rfl, fun _ _ => rfl,
   c7_pause_resume ["aaaa"] "auto" 10 10 "ChatGPT" "k" "zh" "" false simConst
     envsAllUnparsed flagsNone (fun _ => rfl) 0 (fun _ _ => rfl)⟩

/-! ## Lemmas about extraction failure (missing fields) -/

theorem buildEntries_error_iff :
    ∀ (es : List FmgEntry) (ids : List Int),
      exceptOk (buildEntries ids es) = false ↔ ∃ e ∈ es, e.id = none := by
  intro es
  induction es with
  | nil =>
    intro ids
    simp [buildEntries, exceptOk]
  | cons e rest ih =>
    intro ids
    cases he : e.id with
    | none =>
      simp only [buildEntries, he, exceptOk, List.mem_cons]
      exact ⟨fun _ => ⟨e, Or.inl rfl, he⟩, fun _ => by trivial⟩
    | some eid =>
      simp only [buildEntries, he]
      cases hrec : buildEntries (ids ++ [eid]) rest with
      | error msg =>
        dsimp only
        simp only [exceptOk, List.mem_cons]
        constructor
        · intro _
          obtain ⟨e', he', hid⟩ := (ih (ids ++ [eid])).mp (by rw [hrec]; rfl)
          exact ⟨e', Or.inr he', hid⟩
        · intro _
          trivial
      | ok pr =>
        rcases pr with ⟨ixs, ids2⟩
        dsimp only
        simp only [exceptOk, List.mem_cons]
        constructor
        · intro h
          exact absurd h (by simp)
        · rintro ⟨e', he', hid⟩
          rcases he' with h | h
          · subst h
            rw [he] at hid
            exact absurd hid (by simp)
          · have hmm := (ih (ids ++ [eid])).mpr ⟨e', h, hid⟩
            rw [hrec] at hmm
            exact absurd hmm (by simp [exceptOk])

theorem buildWrappers_error_iff :
    ∀ (ws : List FmgWrapper) (ids : List Int),
      exceptOk (buildWrappers ids ws) = false
        ↔ ∃ w ∈ ws, ∃ e ∈ (w.fmg.getD emptyFmg).entries, e.id = none := by
  intro ws
  induction ws with
  | nil =>
    intro ids
    simp [buildWrappers, exceptOk]
  | cons w rest ih =>
    intro ids
    simp only [buildWrappers]
    cases hent : buildEntries ids (w.fmg.getD emptyFmg).entries with
    | error msg =>
      dsimp only
      simp only [exceptOk, List.mem_cons]
      constructor
      · intro _
        obtain ⟨e, he, hid⟩ := (buildEntries_error_iff _ ids).mp (by rw [hent]; rfl)
        exact ⟨w, Or.inl rfl, e, he, hid⟩
      · intro _
        trivial
    | ok pr =>
      rcases pr with ⟨ixs, ids1⟩
      dsimp only
      cases hrec : buildWrappers ids1 rest with
      | error msg =>
        dsimp only
        simp only [exceptOk, List.mem_cons]
        constructor
        · intro _
          obtain ⟨w', hw', hmiss⟩ := (ih ids1).mp (by rw [hrec]; rfl)
          exact ⟨w', Or.inr hw', hmiss⟩
        · intro _
          trivial
      | ok pr2 =>
        rcases pr2 with ⟨blocks, ids2⟩
        dsimp only
        simp only [exceptOk, List.mem_cons]
        constructor
        · intro h
          exact absurd h (by simp)
        · rintro ⟨w', hw', e, he, hid⟩
          rcases hw' with h | h
          · subst h
            have hmm := (buildEntries_error_iff _ ids).mpr ⟨e, he, hid⟩
            rw [hent] at hmm
            exact absurd hmm (by simp [exceptOk])
          · have hmm := (ih ids1).mpr ⟨w', h, e, he, hid⟩
            rw [hrec] at hmm
            exact absurd hmm (by simp [exceptOk])

theorem c8_missing_id_fatal (d : Document) (split : Bool) (m : Nat) :
    (exceptOk (build_structure_and_entryids d) = false
      ↔ ∃ w ∈ d.fmgWrappers, ∃ e ∈ (w.fmg.getD emptyFmg).entries, e.id = none)
    ∧ (∀ msg, build_structure_and_entryids d = .error msg →
        extract_pipeline d split m = .error msg) := by
  constructor
  · have hok : exceptOk (build_structure_and_entryids d)
        = exceptOk (buildWrappers [] d.fmgWrappers) := by
      rw [build_structure_and_entryids]
      cases buildWrappers [] d.fmgWrappers with
      | error msg => rfl
      | ok pr => rcases pr with ⟨a, b⟩; rfl
    rw [hok]
    exact buildWrappers_error_iff d.fmgWrappers []
  · intro msg h
    rw [extract_pipeline, h]

/-- Witness for C8's amended theorem at a concrete input. -/
theorem c8_missing_id_fatal_witness :
    (exceptOk (build_structure_and_entryids docMissingId) = false
      ↔ ∃ w ∈ docMissingId.fmgWrappers,
          ∃ e ∈ (w.fmg.getD emptyFmg).entries, e.id = none)
    ∧ extract_pipeline docMissingId true 250 = .error "KeyError: ID" :=
  ⟨(c8_missing_id_fatal docMissingId true 250).1,
   (c8_missing_id_fatal docMissingId true 250).2 "KeyError: ID" rfl⟩

/-- C8 counterexample: a document whose wrapper is missing its `Name`
field (a group missing a required field) is extracted without any error. -/
theorem c8_counterexample :
    (∃ w ∈ docMissingWrapperName.fmgWrappers, w.name = none)
    ∧ exceptOk (build_structure_and_entryids docMissingWrapperName) = true := by
  constructor
  · exact ⟨⟨none, some 1, some fmgB⟩, by rw [docMissingWrapperName]; exact List.mem_singleton.mpr rfl, rfl⟩
  · rfl

/-! ## Lemmas for the extract-merge round trip (C1) -/

theorem buildEntries_ok :
    ∀ (es : List FmgEntry) (ids : List Int), (∀ e ∈ es, e.id ≠ none) →
      buildEntries ids es
        = .ok (List.range' ids.length es.length, ids ++ es.map (fun e => e.id.getD 0)) := by
  intro es
  induction es with
  | nil =>
    intro ids h
    simp [buildEntries]
  | cons e rest ih =>
    intro ids h
    cases he : e.id with
    | none => exact absurd he (h e (List.mem_cons_self e rest))
    | some eid =>
      simp only [buildEntries, he]
      rw [ih (ids ++ [eid]) (
        fun e' he' => h e' (List.mem_cons_of_mem e he'))]
      simp only [List.length_append, List.length_singleton]
      rw [List.append_assoc]
      simp only [List.singleton_append, List.map_cons, he, Option.getD_some,
        List.length_cons, List.range'_succ]

theorem buildWrappers_ok :
    ∀ (ws : List FmgWrapper) (ids : List Int),
      (∀ w ∈ ws, ∀ e ∈ (w.fmg.getD emptyFmg).entries, e.id ≠ none) →
      buildWrappers ids ws = .ok (blocksSpec ids.length ws, ids ++ flatIds ws) := by
  intro ws
  induction ws with
  | nil =>
    intro ids h
    simp [buildWrappers, blocksSpec, flatIds]
  | cons w rest ih =>
    intro ids h
    simp only [buildWrappers]
    rw [buildEntries_ok (w.fmg.getD emptyFmg).entries ids
      (h w (List.mem_cons_self w rest))]
    dsimp only
    rw [ih (ids ++ (w.fmg.getD emptyFmg).entries.map (fun e => e.id.getD 0))
      (fun w' hw' => h w' (List.mem_cons_of_mem w hw'))]
    dsimp only
    simp only [blocksSpec, flatIds, List.map_cons, List.flatten_cons, List.length_append,
      List.length_map]
    rw [List.append_assoc]

theorem build_structure_ok (d : Document)
    (hid : ∀ w ∈ d.fmgWrappers, ∀ e ∈ (w.fmg.getD emptyFmg).entries, e.id ≠ none) :
    build_structure_and_entryids d
      = .ok (d.name.getD "", blocksSpec 0 d.fmgWrappers, flatIds d.fmgWrappers) := by
  rw [build_structure_and_entryids, buildWrappers_ok d.fmgWrappers [] hid]
  rfl

theorem collect_texts_eq_flatTexts (d : Document) :
    collect_texts d = flatTexts d.fmgWrappers := rfl

theorem flatIds_length_eq (ws : List FmgWrapper) :
    (flatIds ws).length = (flatTexts ws).length := by
  induction ws with
  | nil => rfl
  | cons w rest ih =>
    simp only [flatIds, flatTexts, List.map_cons, List.flatten_cons, List.length_append,
      List.length_map] at ih ⊢
    omega

theorem flatPairs_eq_zip (ws : List FmgWrapper) :
    flatPairs ws = (flatIds ws).zip (flatTexts ws) := by
  induction ws with
  | nil => rfl
  | cons w rest ih =>
    simp only [flatPairs, flatIds, flatTexts, List.map_cons, List.flatten_cons] at ih ⊢
    rw [List.zip_append (by simp), ih, List.zip_map']

theorem flatPairs_length (ws : List FmgWrapper) :
    (flatPairs ws).length = (flatIds ws).length := by
  rw [flatPairs_eq_zip, List.length_zip, flatIds_length_eq, Nat.min_self]

theorem flatPairs_getD (ws : List FmgWrapper) (j : Nat) (hj : j < (flatIds ws).length) :
    (flatPairs ws).getD j (0, "")
      = ((flatIds ws).getD j 0, (flatTexts ws).getD j "") := by
  have hj2 : j < (flatTexts ws).length := by rw [← flatIds_length_eq]; exact hj
  rw [flatPairs_eq_zip]
  have hzl : j < ((flatIds ws).zip (flatTexts ws)).length := by
    rw [List.length_zip, flatIds_length_eq, Nat.min_self]
    exact hj2
  rw [List.getD_eq_getElem _ _ hzl, List.getElem_zip, List.getD_eq_getElem _ _ hj,
    List.getD_eq_getElem _ _ hj2]

theorem writeAt_length :
    ∀ (arr buf : List String) (gi : Nat), (writeAt buf gi arr).length = buf.length := by
  intro arr
  induction arr with
  | nil => intro buf gi; rfl
  | cons t rest ih =>
    intro buf gi
    rw [writeAt, ih]
    split
    · rw [List.length_set]
    · rfl

theorem writeAt_getD :
    ∀ (arr buf : List String) (s i : Nat), i < buf.length →
      (writeAt buf s arr).getD i ""
        = if s ≤ i ∧ i < s + arr.length then arr.getD (i - s) "" else buf.getD i "" := by
  intro arr
  induction arr with
  | nil =>
    intro buf s i h
    rw [writeAt, if_neg (by simp only [List.length_nil]; omega)]
  | cons t rest ih =>
    intro buf s i h
    rw [writeAt]
    by_cases hsb : s < buf.length
    · rw [if_pos hsb]
      rw [ih (buf.set s t) (s + 1) i (by rw [List.length_set]; exact h)]
      by_cases h1 : s + 1 ≤ i ∧ i < s + 1 + rest.length
      · rw [if_pos h1, if_pos (show s ≤ i ∧ i < s + (t :: rest).length by
          simp only [List.length_cons]; omega)]
        have h2 : i - s = (i - (s + 1)) + 1 := by omega
        rw [h2, List.getD_cons_succ]
      · rw [if_neg h1]
        by_cases h2 : i = s
        · subst h2
          rw [if_pos (show i ≤ i ∧ i < i + (t :: rest).length by
            simp only [List.length_cons]; omega)]
          rw [List.getD_eq_getElem?_getD, List.getElem?_set, if_pos rfl, if_pos h]
          simp
        · rw [if_neg (show ¬(s ≤ i ∧ i < s + (t :: rest).length) by
            simp only [List.length_cons]; omega)]
          rw [List.getD_eq_getElem?_getD, List.getElem?_set,
            if_neg (show ¬(s = i) from fun hh => h2 hh.symm),
            ← List.getD_eq_getElem?_getD]
    · rw [if_neg hsb]
      rw [ih buf (s + 1) i h]
      rw [if_neg (show ¬(s + 1 ≤ i ∧ i < s + 1 + rest.length) by omega)]
      rw [if_neg (show ¬(s ≤ i ∧ i < s + (t :: rest).length) by omega)]

theorem fill_fold (texts : List String) :
    ∀ (ps : List Part) (buf : List String),
      buf.length = texts.length →
      (∀ p ∈ ps, ValidPart texts p) →
      ((ps.foldl (fun b p => writeAt b p.startIndex p.entries) buf).length = texts.length)
      ∧ (∀ i, i < texts.length →
          (CoveredBy ps i →
            (ps.foldl (fun b p => writeAt b p.startIndex p.entries) buf).getD i ""
              = texts.getD i "")
          ∧ (¬CoveredBy ps i →
            (ps.foldl (fun b p => writeAt b p.startIndex p.entries) buf).getD i ""
              = buf.getD i "")) := by
  intro ps
  induction ps with
  | nil =>
    intro buf hbuf hval
    refine ⟨hbuf, fun i hi => ⟨?_, fun _ => rfl⟩⟩
    rintro ⟨p, hp, _⟩
    simp at hp
  | cons p ps ih =>
    intro buf hbuf hval
    rw [List.foldl_cons]
    have hvp : ValidPart texts p := hval p (List.mem_cons_self p ps)
    have hbuf' : (writeAt buf p.startIndex p.entries).length = texts.length := by
      rw [writeAt_length]
      exact hbuf
    obtain ⟨IH1, IH2⟩ := ih (writeAt buf p.startIndex p.entries) hbuf'
      (fun q hq => hval q (List.mem_cons_of_mem p hq))
    refine ⟨IH1, fun i hi => ⟨?_, ?_⟩⟩
    · intro hcov
      by_cases hcps : CoveredBy ps i
      · exact (IH2 i hi).1 hcps
      · rw [(IH2 i hi).2 hcps]
        have hp : p.startIndex ≤ i ∧ i < p.startIndex + p.entries.length := by
          rcases hcov with ⟨q, hq, hrange⟩
          rcases List.mem_cons.mp hq with h | h
          · subst h
            exact hrange
          · exact absurd ⟨q, h, hrange⟩ hcps
        rw [writeAt_getD _ _ _ _ (by rw [hbuf]; exact hi), if_pos hp]
        have := hvp.2 (i - p.startIndex) (by omega)
        rw [this]
        congr 1
        omega
    · intro hncov
      have hncps : ¬CoveredBy ps i := fun ⟨q, hq, hr⟩ =>
        hncov ⟨q, List.mem_cons_of_mem p hq, hr⟩
      rw [(IH2 i hi).2 hncps]
      rw [writeAt_getD _ _ _ _ (by rw [hbuf]; exact hi)]
      rw [if_neg (fun hr => hncov ⟨p, List.mem_cons_self p ps, hr⟩)]

theorem single_part_valid (texts : List String) :
    ValidPart texts { chunkIndex := 1, chunkCount := 1, startIndex := 0
                      count := texts.length, entries := texts } := by
  constructor
  · simp
  · intro j hj
    simp

theorem single_part_covers (texts : List String) (i : Nat) (hi : i < texts.length) :
    CoveredBy [{ chunkIndex := 1, chunkCount := 1, startIndex := 0
                 count := texts.length, entries := texts }] i := by
  refine ⟨_, List.mem_singleton.mpr rfl, ?_⟩
  simpa using hi

theorem ceil_mul_ge (n m : Nat) (hm : 0 < m) : n ≤ m * ((n + m - 1) / m) := by
  have h1 := Nat.div_add_mod (n + m - 1) m
  have h2 : (n + m - 1) % m < m := Nat.mod_lt _ hm
  omega

theorem chunk_start_lt (n m i : Nat) (hm : 0 < m) (hi : i < (n + m - 1) / m) :
    i * m < n := by
  have h1 : (i + 1) * m ≤ ((n + m - 1) / m) * m := Nat.mul_le_mul_right m hi
  have h2 : ((n + m - 1) / m) * m ≤ n + m - 1 := Nat.div_mul_le_self _ m
  have h3 : (i + 1) * m = i * m + m := by ring
  omega

theorem chunk_part_valid (texts : List String) (m : Nat) (hm : 0 < m) (i : Nat)
    (hi : i < (texts.length + m - 1) / m) :
    ValidPart texts
      { chunkIndex := i + 1, chunkCount := (texts.length + m - 1) / m
        startIndex := i * m, count := ((texts.drop (i * m)).take m).length
        entries := (texts.drop (i * m)).take m } := by
  have hstart : i * m < texts.length := chunk_start_lt texts.length m i hm hi
  constructor
  · simp only [List.length_take, List.length_drop]
    omega
  · intro j hj
    simp only [List.length_take, List.length_drop] at hj
    have h1 : j < ((texts.drop (i * m)).take m).length := by
      simp only [List.length_take, List.length_drop]
      omega
    rw [List.getD_eq_getElem _ _ h1, List.getD_eq_getElem _ _ (by omega : i * m + j < texts.length)]
    rw [List.getElem_take, List.getElem_drop]

theorem chunk_parts_cover (texts : List String) (m : Nat) (hm : 0 < m)
    (i : Nat) (hi : i < texts.length) :
    CoveredBy ((List.range ((texts.length + m - 1) / m)).map (fun j =>
      { chunkIndex := j + 1, chunkCount := (texts.length + m - 1) / m
        startIndex := j * m, count := ((texts.drop (j * m)).take m).length
        entries := (texts.drop (j * m)).take m })) i := by
  have hceil := ceil_mul_ge texts.length m hm
  have hjlt : i / m < (texts.length + m - 1) / m := by
    rw [Nat.div_lt_iff_lt_mul hm]
    have : ((texts.length + m - 1) / m) * m = m * ((texts.length + m - 1) / m) := by ring
    omega
  refine ⟨_, List.mem_map.mpr ⟨i / m, List.mem_range.mpr hjlt, rfl⟩, ?_⟩
  have hdm := Nat.div_add_mod i m
  have hmod : i % m < m := Nat.mod_lt _ hm
  have hcomm : i / m * m = m * (i / m) := by ring
  constructor
  · simp only []
    omega
  · simp only [List.length_take, List.length_drop]
    omega

theorem restore_blocks_data :
    ∀ (ws : List FmgWrapper) (off : Nat) (merged : List (Int × String)),
      (∀ w ∈ ws, ∀ e ∈ (w.fmg.getD emptyFmg).entries, e.id ≠ none) →
      (∀ j, j < (flatPairs ws).length →
        merged.getD (off + j) (0, "") = (flatPairs ws).getD j (0, "")) →
      off + (flatPairs ws).length ≤ merged.length →
      ((blocksSpec off ws).map (fun b =>
          b.entryIndexes.map (fun idx =>
            ((if idx < (merged.map Prod.fst).length
                then some ((merged.map Prod.fst).getD idx 0) else none),
             (merged.getD idx (0, "")).2))))
        = wrappersEntryData ws := by
  intro ws
  induction ws with
  | nil =>
    intro off merged hwf hm hb
    rfl
  | cons w rest ih =>
    intro off merged hwf hm hb
    have hfp : flatPairs (w :: rest)
        = (w.fmg.getD emptyFmg).entries.map (fun e => (e.id.getD 0, e.text.getD ""))
          ++ flatPairs rest := by
      simp [flatPairs]
    have hfplen : (flatPairs (w :: rest)).length
        = (w.fmg.getD emptyFmg).entries.length + (flatPairs rest).length := by
      rw [hfp, List.length_append, List.length_map]
    simp only [blocksSpec, wrappersEntryData, List.map_cons]
    congr 1
    · apply List.ext_getElem
      · simp
      · intro j h1 h2
        simp only [List.length_map, List.length_range'] at h1
        have hjk : j < (w.fmg.getD emptyFmg).entries.length := h1
        have hoffj : off + j < merged.length := by
          rw [hfplen] at hb
          omega
        have hmj := hm j (by rw [hfplen]; omega)
        have hpw : (flatPairs (w :: rest)).getD j (0, "")
            = ((w.fmg.getD emptyFmg).entries.map
                (fun e => (e.id.getD 0, e.text.getD ""))).getD j (0, "") := by
          rw [hfp]
          rw [List.getD_eq_getElem?_getD, List.getElem?_append,
            if_pos (by rw [List.length_map]; exact hjk),
            ← List.getD_eq_getElem?_getD]
        have hpwval : ((w.fmg.getD emptyFmg).entries.map
            (fun e => (e.id.getD 0, e.text.getD ""))).getD j (0, "")
            = (((w.fmg.getD emptyFmg).entries.get ⟨j, hjk⟩).id.getD 0,
               ((w.fmg.getD emptyFmg).entries.get ⟨j, hjk⟩).text.getD "") := by
          rw [List.getD_eq_getElem _ _ (by rw [List.length_map]; exact hjk)]
          simp [List.getElem_map]
        rw [List.getElem_map, List.getElem_map, List.getElem_range']
        have hguard : off + 1 * j < (merged.map Prod.fst).length := by
          rw [List.length_map]
          omega
        rw [if_pos hguard]
        have hfst : (merged.map Prod.fst).getD (off + 1 * j) 0
            = (merged.getD (off + 1 * j) (0, "")).1 := by
          rw [List.getD_eq_getElem _ _ (by rw [List.length_map]; omega : off + 1 * j < (merged.map Prod.fst).length),
            List.getD_eq_getElem _ _ (by omega : off + 1 * j < merged.length)]
          simp [List.getElem_map]
        have hone : off + 1 * j = off + j := by omega
        rw [hone] at hfst ⊢
        rw [hfst, hmj, hpw, hpwval]
        have hidne := hwf w (List.mem_cons_self w rest)
          ((w.fmg.getD emptyFmg).entries.get ⟨j, hjk⟩)
          (List.get_mem _ _ hjk)
        cases hival : ((w.fmg.getD emptyFmg).entries.get ⟨j, hjk⟩).id with
        | none => exact absurd hival hidne
        | some v =>
          simp [hival]
    · refine ih (off + (w.fmg.getD emptyFmg).entries.length) merged
        (fun w' hw' => hwf w' (List.mem_cons_of_mem w hw')) ?_ ?_
      · intro j hj
        have hm2 := hm ((w.fmg.getD emptyFmg).entries.length + j) (by rw [hfplen]; omega)
        have hsplit : (flatPairs (w :: rest)).getD
            ((w.fmg.getD emptyFmg).entries.length + j) (0, "")
            = (flatPairs rest).getD j (0, "") := by
          rw [hfp]
          rw [List.getD_eq_getElem?_getD, List.getElem?_append,
            if_neg (by rw [List.length_map]; omega)]
          rw [List.length_map]
          have hsub : (w.fmg.getD emptyFmg).entries.length + j
              - (w.fmg.getD emptyFmg).entries.length = j := by omega
          rw [hsub, ← List.getD_eq_getElem?_getD]
        rw [← hsplit, ← hm2]
        congr 1
        omega
      · rw [hfplen] at hb
        omega

theorem merge_after_extract (d : Document) (hw : WellFormedDoc d) (ps : List Part)
    (hvalid : ∀ p ∈ ps, ValidPart (collect_texts d) p)
    (hcover : ∀ i, i < (collect_texts d).length → CoveredBy ps i)
    (hne : ps ≠ []) :
    ∃ r, merge_pipeline
        { sourceTopName := d.name.getD "", version := 1
          totalEntries := (flatIds d.fmgWrappers).length
          structureBlocks := blocksSpec 0 d.fmgWrappers
          entryIDs := flatIds d.fmgWrappers } ps = .ok r
      ∧ restoredEntryData r = docEntryData d := by
  have hid : ∀ w ∈ d.fmgWrappers, ∀ e ∈ (w.fmg.getD emptyFmg).entries, e.id ≠ none :=
    fun w hw' e he => (hw w hw' e he).1
  have hlenids : (flatIds d.fmgWrappers).length = (collect_texts d).length := by
    rw [collect_texts_eq_flatTexts]
    exact flatIds_length_eq d.fmgWrappers
  obtain ⟨hfl, hfp⟩ := fill_fold (collect_texts d) ps
    (List.replicate (flatIds d.fmgWrappers).length "")
    (by rw [List.length_replicate, hlenids]) hvalid
  refine ⟨restore_original_from_parts (d.name.getD "") (blocksSpec 0 d.fmgWrappers)
      ((flatIds d.fmgWrappers).enum.map (fun p =>
        (p.2, (ps.foldl (fun b pp => writeAt b pp.startIndex pp.entries)
          (List.replicate (flatIds d.fmgWrappers).length "")).getD p.1 ""))), ?_, ?_⟩
  · have hmf : merge_folder
        { sourceTopName := d.name.getD "", version := 1
          totalEntries := (flatIds d.fmgWrappers).length
          structureBlocks := blocksSpec 0 d.fmgWrappers
          entryIDs := flatIds d.fmgWrappers } ps
        = .ok (d.name.getD "", blocksSpec 0 d.fmgWrappers,
            (flatIds d.fmgWrappers).enum.map (fun p =>
              (p.2, (ps.foldl (fun b pp => writeAt b pp.startIndex pp.entries)
                (List.replicate (flatIds d.fmgWrappers).length "")).getD p.1 ""))) := by
      rw [merge_folder.eq_def]
      dsimp only
      rw [if_neg hne]
    rw [merge_pipeline.eq_def, hmf]
  · set buffer := ps.foldl (fun b pp => writeAt b pp.startIndex pp.entries)
      (List.replicate (flatIds d.fmgWrappers).length "") with hbuffer
    set merged := (flatIds d.fmgWrappers).enum.map
      (fun p => (p.2, buffer.getD p.1 "")) with hmerged
    have hmlen : merged.length = (flatIds d.fmgWrappers).length := by
      rw [hmerged, List.length_map, List.enum_length]
    have hbufval : ∀ j, j < (collect_texts d).length →
        buffer.getD j "" = (collect_texts d).getD j "" := by
      intro j hj
      exact (hfp j hj).1 (hcover j hj)
    have hmatch : ∀ j, j < (flatPairs d.fmgWrappers).length →
        merged.getD (0 + j) (0, "") = (flatPairs d.fmgWrappers).getD j (0, "") := by
      intro j hj
      rw [flatPairs_length] at hj
      have hjm : j < merged.length := by rw [hmlen]; exact hj
      rw [Nat.zero_add]
      rw [List.getD_eq_getElem _ _ hjm]
      simp only [hmerged, List.getElem_map, List.getElem_enum]
      rw [flatPairs_getD d.fmgWrappers j hj]
      rw [collect_texts_eq_flatTexts] at hbufval
      rw [hbufval j (by rw [← flatIds_length_eq]; exact hj)]
      rw [List.getD_eq_getElem _ _ hj]
    have hb : 0 + (flatPairs d.fmgWrappers).length ≤ merged.length := by
      rw [flatPairs_length, hmlen]
      omega
    have hrestore := restore_blocks_data d.fmgWrappers 0 merged hid hmatch hb
    rw [docEntryData]
    rw [← hrestore]
    rw [restoredEntryData, restore_original_from_parts]
    rw [List.map_map]
    refine List.map_congr_left (fun b _ => ?_)
    simp only [Function.comp_apply]
    rw [List.map_map]
    rfl

/-- C1 (amended): for every well-formed document — every entry carrying
`ID` and `Text` — and every split configuration that produces at least one
part (splitting off, or a positive per-part maximum with a non-empty entry
list), extraction succeeds and merging the produced parts in any order
yields a document whose per-wrapper entry `(ID, Text)` payloads equal the
original's. -/
theorem c1_extract_merge_roundtrip (d : Document) (split : Bool) (m : Nat)
    (hw : WellFormedDoc d)
    (hcfg : split = false ∨ (0 < m ∧ collect_texts d ≠ [])) :
    ∃ h ps, extract_pipeline d split m = .ok (h, ps)
      ∧ ∀ ps', ps'.Perm ps →
          ∃ r, merge_pipeline h ps' = .ok r ∧ restoredEntryData r = docEntryData d := by
  have hid : ∀ w ∈ d.fmgWrappers, ∀ e ∈ (w.fmg.getD emptyFmg).entries, e.id ≠ none :=
    fun w hw' e he => (hw w hw' e he).1
  have hpipe : extract_pipeline d split m
      = write_header_and_parts (d.name.getD "") (blocksSpec 0 d.fmgWrappers)
          (flatIds d.fmgWrappers) (collect_texts d) split m := by
    rw [extract_pipeline, build_structure_ok d hid]
  cases split with
  | false =>
    refine ⟨_, _, by rw [hpipe, write_header_and_parts.eq_def, if_pos rfl], ?_⟩
    intro ps' hperm
    apply merge_after_extract d hw ps'
    · intro p hp
      have hmem := (hperm.mem_iff).mp hp
      rw [List.mem_singleton] at hmem
      subst hmem
      exact single_part_valid (collect_texts d)
    · intro i hi
      obtain ⟨p, hp, hr⟩ := single_part_covers (collect_texts d) i hi
      exact ⟨p, (hperm.mem_iff).mpr hp, hr⟩
    · intro hnil
      have := hperm.length_eq
      rw [hnil] at this
      simp at this
  | true =>
    rcases hcfg with hc | ⟨hm, hne⟩
    · exact absurd hc (by simp)
    · have hwrite : write_header_and_parts (d.name.getD "") (blocksSpec 0 d.fmgWrappers)
          (flatIds d.fmgWrappers) (collect_texts d) true m
          = .ok ({ sourceTopName := d.name.getD "", version := 1
                   totalEntries := (flatIds d.fmgWrappers).length
                   structureBlocks := blocksSpec 0 d.fmgWrappers
                   entryIDs := flatIds d.fmgWrappers },
                 (List.range (((collect_texts d).length + m - 1) / m)).map (fun j =>
                   { chunkIndex := j + 1
                     chunkCount := ((collect_texts d).length + m - 1) / m
                     startIndex := j * m
                     count := (((collect_texts d).drop (j * m)).take m).length
                     entries := ((collect_texts d).drop (j * m)).take m })) := by
        rw [write_header_and_parts.eq_def, if_neg (by simp), if_neg hm.ne']
      refine ⟨_, _, by rw [hpipe, hwrite], ?_⟩
      intro ps' hperm
      apply merge_after_extract d hw ps'
      · intro p hp
        have hmem := (hperm.mem_iff).mp hp
        obtain ⟨j, hj, rfl⟩ := List.mem_map.mp hmem
        exact chunk_part_valid (collect_texts d) m hm j (List.mem_range.mp hj)
      · intro i hi
        obtain ⟨p, hp, hr⟩ := chunk_parts_cover (collect_texts d) m hm i hi
        exact ⟨p, (hperm.mem_iff).mpr hp, hr⟩
      · intro hnil
        have hlen := hperm.length_eq
        rw [hnil] at hlen
        have hn1 : 0 < (collect_texts d).length := List.length_pos.mpr hne
        have hc1 : 0 < ((collect_texts d).length + m - 1) / m := by
          have := (Nat.one_le_div_iff hm).mpr
            (show m ≤ (collect_texts d).length + m - 1 by omega)
          omega
        rw [List.length_nil, List.length_map, List.length_range] at hlen
        omega

/-- C1 counterexample: a well-formed document with no entries, extracted
with splitting enabled, produces zero parts, and the immediate merge then
raises (`part_*.json` not found) instead of yielding a document. -/
theorem c1_counterexample :
    WellFormedDoc docNoEntries
    ∧ extract_then_merge docNoEntries true 250 = .error "part files not found" :=
  ⟨by unfold WellFormedDoc; decide, rfl⟩

/-- Witness for C1's amended round-trip theorem at a concrete document. -/
theorem c1_extract_merge_roundtrip_witness :
    WellFormedDoc docSample
    ∧ (∃ h ps, extract_pipeline docSample false 0 = .ok (h, ps)
        ∧ ∀ ps', ps'.Perm ps →
            ∃ r, merge_pipeline h ps' = .ok r
              ∧ restoredEntryData r = docEntryData docSample) :=
  ⟨by unfold WellFormedDoc; decide,
   c1_extract_merge_roundtrip docSample false 0 (by unfold WellFormedDoc; decide) (Or.inl rfl)⟩

end DS3
